import Mathlib

/-!
Verification of the path-finding framework's core: the search-tree node and
path reconstruction, the three frontier variants (LIFO stack, FIFO queue,
lazy-deletion priority queue), and the `SearchEngine.search` main loop.

Modelling conventions:
* Python floats (costs, priorities) are modelled as rationals `ℚ`; the
  `float('inf')` default of `best_cost.get(state, inf)` is modelled by
  matching on the lookup (absent key means the comparison with infinity,
  which a finite cost always wins); the `total_cost` of a result lives in
  `WithTop ℚ` so that the failure result's `float('inf')` is `⊤`.
* Python dicts are association lists with first-match lookup and
  insert-replaces-key semantics; Python sets are lists queried by membership.
* `heapq` is modelled as a list of entries popped in ascending
  `(priority, counter)` lexicographic order.  Since every entry pushed to the
  heap carries a fresh strictly increasing counter, this order is total on the
  entries ever present, so extraction order — the only observable of the heap
  — coincides with the Python binary heap's.
* Raising `IndexError` on an empty pop is modelled by returning `none`.
* The search loop runs on explicit fuel; `none` means the fuel ran out.
-/

set_option linter.unusedVariables false

namespace PathFinding

variable {S : Type} {A : Type}

/-- `Node` from `core/types.py`: state, optional parent link, optional action,
cumulative path cost `g(n)`, and depth. -/
inductive Node (S : Type) (A : Type) : Type
  | mk (state : S) (parent : Option (Node S A)) (action : Option A)
      (path_cost : ℚ) (depth : Nat)

namespace Node

def state : Node S A → S
  | mk s _ _ _ _ => s

def parent : Node S A → Option (Node S A)
  | mk _ p _ _ _ => p

def action : Node S A → Option A
  | mk _ _ a _ _ => a

def path_cost : Node S A → ℚ
  | mk _ _ _ c _ => c

def depth : Node S A → Nat
  | mk _ _ _ _ d => d

end Node

/-- Association-list lookup, first binding wins (Python `dict` access / `.get`). -/
def lookupKey [DecidableEq S] {β : Type} : List (S × β) → S → Option β
  | [], _ => none
  | (k, v) :: rest, s => if k = s then some v else lookupKey rest s

/-- Remove every binding of a key (Python `del d[k]`). -/
def eraseKey [DecidableEq S] {β : Type} : List (S × β) → S → List (S × β)
  | [], _ => []
  | (k, v) :: rest, s => if k = s then eraseKey rest s else (k, v) :: eraseKey rest s

/-- Python `d[k] = v`: the key now maps to `v` and nothing else. -/
def insertKey [DecidableEq S] {β : Type} (l : List (S × β)) (s : S) (v : β) :
    List (S × β) :=
  (s, v) :: eraseKey l s

/-- Remove one occurrence of an element (Python `set.discard`, the set holding
at most one occurrence). -/
def removeFirst [DecidableEq S] : List S → S → List S
  | [], _ => []
  | x :: rest, s => if x = s then rest else x :: removeFirst rest s

/-! ### LIFO stack frontier (`data_structures/lifo_stack.py`)

The Python stack appends and pops at the list's end; here the head of
`stack` is the top, which realizes the same push/pop discipline. -/

structure LIFOStackFrontier (S A : Type) where
  stack : List (Node S A)
  state_set : List S

namespace LIFOStackFrontier

def empty : LIFOStackFrontier S A := ⟨[], []⟩

def push [DecidableEq S] (f : LIFOStackFrontier S A) (node : Node S A)
    (priority : ℚ) : LIFOStackFrontier S A :=
  if node.state ∈ f.state_set then f
  else ⟨node :: f.stack, node.state :: f.state_set⟩

def pop [DecidableEq S] (f : LIFOStackFrontier S A) :
    Option (Node S A × LIFOStackFrontier S A) :=
  match f.stack with
  | [] => none
  | node :: rest => some (node, ⟨rest, removeFirst f.state_set node.state⟩)

def is_empty (f : LIFOStackFrontier S A) : Bool := f.stack.isEmpty

def size (f : LIFOStackFrontier S A) : Nat := f.stack.length

def contains [DecidableEq S] (f : LIFOStackFrontier S A) (s : S) : Bool :=
  s ∈ f.state_set

end LIFOStackFrontier

/-! ### FIFO queue frontier (`data_structures/fifo_queue.py`) -/

structure FIFOQueueFrontier (S A : Type) where
  queue : List (Node S A)
  state_set : List S

namespace FIFOQueueFrontier

def empty : FIFOQueueFrontier S A := ⟨[], []⟩

def push [DecidableEq S] (f : FIFOQueueFrontier S A) (node : Node S A)
    (priority : ℚ) : FIFOQueueFrontier S A :=
  if node.state ∈ f.state_set then f
  else ⟨f.queue ++ [node], node.state :: f.state_set⟩

def pop [DecidableEq S] (f : FIFOQueueFrontier S A) :
    Option (Node S A × FIFOQueueFrontier S A) :=
  match f.queue with
  | [] => none
  | node :: rest => some (node, ⟨rest, removeFirst f.state_set node.state⟩)

def is_empty (f : FIFOQueueFrontier S A) : Bool := f.queue.isEmpty

def size (f : FIFOQueueFrontier S A) : Nat := f.queue.length

def contains [DecidableEq S] (f : FIFOQueueFrontier S A) (s : S) : Bool :=
  s ∈ f.state_set

end FIFOQueueFrontier

/-! ### Priority queue frontier (`data_structures/priority_queue.py`) -/

/-- A heap entry `(priority, counter, node)`. -/
structure Entry (S A : Type) where
  priority : ℚ
  count : Nat
  node : Node S A

/-- Lexicographic order on `(priority, counter)` — the order in which the
Python `heapq` yields entries (counters are pairwise distinct, so the node
component is never compared). -/
def entryLE (e f : Entry S A) : Prop :=
  e.priority < f.priority ∨ (e.priority = f.priority ∧ e.count ≤ f.count)

instance (e f : Entry S A) : Decidable (entryLE e f) :=
  inferInstanceAs
    (Decidable (e.priority < f.priority ∨ (e.priority = f.priority ∧ e.count ≤ f.count)))

/-- Extract the `(priority, counter)`-least entry of the heap (first occurrence
among equals), together with the remaining entries: one `heapq.heappop`. -/
def popMinEntry : List (Entry S A) → Option (Entry S A × List (Entry S A))
  | [] => none
  | e :: rest =>
    match popMinEntry rest with
    | none => some (e, [])
    | some (m, rest') =>
      if entryLE e m then some (e, rest) else some (m, e :: rest')

structure PriorityQueueFrontier (S A : Type) where
  heap : List (Entry S A)
  entry_finder : List (S × Entry S A)
  counter : Nat

namespace PriorityQueueFrontier

def empty : PriorityQueueFrontier S A := ⟨[], [], 0⟩

/-- `PriorityQueueFrontier.push`: update-on-improve.  If the state is present
with a strictly higher priority, the stale finder binding is dropped and a
fresh entry is recorded (the stale heap entry stays - lazy deletion);
if present with an equal-or-lower priority the push is discarded. -/
def push [DecidableEq S] (q : PriorityQueueFrontier S A) (node : Node S A)
    (priority : ℚ) : PriorityQueueFrontier S A :=
  match lookupKey q.entry_finder node.state with
  | some old =>
    if priority < old.priority then
      let ef := eraseKey q.entry_finder node.state
      let entry : Entry S A := ⟨priority, q.counter, node⟩
      ⟨q.heap ++ [entry], insertKey ef node.state entry, q.counter + 1⟩
    else q
  | none =>
    let entry : Entry S A := ⟨priority, q.counter, node⟩
    ⟨q.heap ++ [entry], insertKey q.entry_finder node.state entry, q.counter + 1⟩

/-- The pop loop: repeatedly `heappop` until an entry matches the finder's
current binding for its state (the equality check compares priority, counter
and node — Python `Node.__eq__` compares by state).  Fueled by the heap
length, which bounds the number of iterations. -/
def popAux [DecidableEq S] :
    Nat → List (Entry S A) → List (S × Entry S A) →
      Option (Node S A × List (Entry S A) × List (S × Entry S A))
  | 0, _, _ => none
  | Nat.succ fuel, heap, ef =>
    match popMinEntry heap with
    | none => none
    | some (e, rest) =>
      match lookupKey ef e.node.state with
      | some cur =>
        if cur.priority = e.priority ∧ cur.count = e.count ∧
            cur.node.state = e.node.state then
          some (e.node, rest, eraseKey ef e.node.state)
        else popAux fuel rest ef
      | none => popAux fuel rest ef

def pop [DecidableEq S] (q : PriorityQueueFrontier S A) :
    Option (Node S A × PriorityQueueFrontier S A) :=
  match popAux q.heap.length q.heap q.entry_finder with
  | none => none
  | some (n, heap', ef') => some (n, ⟨heap', ef', q.counter⟩)

def is_empty (q : PriorityQueueFrontier S A) : Bool := q.entry_finder.isEmpty

def size (q : PriorityQueueFrontier S A) : Nat := q.entry_finder.length

def contains [DecidableEq S] (q : PriorityQueueFrontier S A) (s : S) : Bool :=
  (lookupKey q.entry_finder s).isSome

end PriorityQueueFrontier

/-! ### The search engine (`core/search_engine.py`)

The engine is written against the abstract frontier interface; a
`FrontierOps` record packages one concrete frontier's operations
(dependency injection, as in the source). -/

/-- The operations of `AbstractFrontier` that the engine calls. -/
structure FrontierOps (S A : Type) (σ : Type) where
  push : σ → Node S A → ℚ → σ
  pop : σ → Option (Node S A × σ)
  is_empty : σ → Bool
  size : σ → Nat

def lifoOps [DecidableEq S] : FrontierOps S A (LIFOStackFrontier S A) :=
  ⟨LIFOStackFrontier.push, LIFOStackFrontier.pop,
   LIFOStackFrontier.is_empty, LIFOStackFrontier.size⟩

def fifoOps [DecidableEq S] : FrontierOps S A (FIFOQueueFrontier S A) :=
  ⟨FIFOQueueFrontier.push, FIFOQueueFrontier.pop,
   FIFOQueueFrontier.is_empty, FIFOQueueFrontier.size⟩

def pqOps [DecidableEq S] : FrontierOps S A (PriorityQueueFrontier S A) :=
  ⟨PriorityQueueFrontier.push, PriorityQueueFrontier.pop,
   PriorityQueueFrontier.is_empty, PriorityQueueFrontier.size⟩

/-- `SearchResult` from `core/types.py`. -/
structure SearchResult (S A : Type) where
  success : Bool
  goal_node : Option (Node S A)
  nodes_expanded : Nat
  nodes_generated : Nat
  max_frontier_size : Nat
  path : List S
  actions : List A
  total_cost : WithTop ℚ

/-- The goal-to-root traversal of `_reconstruct_path`: states of the ancestry
chain, goal first, and the actions of the nodes that have one. -/
def collectBack : Node S A → List S × List A
  | .mk s p a _ _ =>
    let rest : List S × List A :=
      match p with
      | none => ([], [])
      | some q => collectBack q
    (s :: rest.1,
     match a with
     | none => rest.2
     | some act => act :: rest.2)

/-- `SearchEngine._reconstruct_path`: collect backwards, then reverse both
sequences to read initial → goal. -/
def reconstruct_path (goal_node : Node S A) : List S × List A :=
  ((collectBack goal_node).1.reverse, (collectBack goal_node).2.reverse)

/-- The engine's injected collaborators and configuration flags.  The
heuristic is a plain function `S → ℚ`; the priority function receives the
node and the heuristic, as in the source. -/
structure EngineCfg (S A : Type) (σ : Type) where
  ops : FrontierOps S A σ
  initial_state : S
  is_goal : S → Bool
  get_successors : S → List (S × A × ℚ)
  priority_fn : Node S A → (S → ℚ) → ℚ
  heuristic : S → ℚ
  graph_search : Bool
  allow_revisit : Bool

/-- The engine instance's mutable attributes: the frontier (which `search`
never clears), the closed set, the best-cost map and the statistics. -/
structure EngineState (S : Type) (σ : Type) where
  frontier : σ
  closed : List S
  best_cost : List (S × ℚ)
  nodes_expanded : Nat
  nodes_generated : Nat
  max_frontier_size : Nat

namespace SearchEngine

variable {σ : Type}

/-- One iteration of the `for next_state, action, step_cost in successors`
loop of `_expand_node`: skip a closed state (strict mode) or a non-improving
cost (revisit mode), otherwise push the child and count it as generated. -/
def expand_step [DecidableEq S] (cfg : EngineCfg S A σ) (node : Node S A)
    (st : EngineState S σ) (succ : S × A × ℚ) : EngineState S σ :=
  let next_state := succ.1
  let action := succ.2.1
  let step_cost := succ.2.2
  let new_cost := node.path_cost + step_cost
  let skip : Bool :=
    if cfg.graph_search then
      if cfg.allow_revisit then
        match lookupKey st.best_cost next_state with
        | some best => decide (new_cost ≥ best)
        | none => false
      else decide (next_state ∈ st.closed)
    else false
  if skip then st
  else
    let child : Node S A :=
      Node.mk next_state (some node) (some action) new_cost (node.depth + 1)
    let priority := cfg.priority_fn child cfg.heuristic
    { st with
      frontier := cfg.ops.push st.frontier child priority,
      nodes_generated := st.nodes_generated + 1 }

/-- `SearchEngine._expand_node`: fold `expand_step` over the successor
list. -/
def expand_node [DecidableEq S] (cfg : EngineCfg S A σ)
    (node : Node S A) (st : EngineState S σ) : EngineState S σ :=
  (cfg.get_successors node.state).foldl (expand_step cfg node) st

/-- `SearchEngine._build_success_result`. -/
def build_success_result [DecidableEq S] (st : EngineState S σ)
    (goal_node : Node S A) : SearchResult S A :=
  { success := true
    goal_node := some goal_node
    nodes_expanded := st.nodes_expanded
    nodes_generated := st.nodes_generated
    max_frontier_size := st.max_frontier_size
    path := (reconstruct_path goal_node).1
    actions := (reconstruct_path goal_node).2
    total_cost := ((goal_node.path_cost : ℚ) : WithTop ℚ) }

/-- `SearchEngine._build_failure_result`. -/
def build_failure_result (st : EngineState S σ) : SearchResult S A :=
  { success := false
    goal_node := none
    nodes_expanded := st.nodes_expanded
    nodes_generated := st.nodes_generated
    max_frontier_size := st.max_frontier_size
    path := []
    actions := []
    total_cost := ⊤ }

/-- The main `while not frontier.is_empty()` loop of `SearchEngine.search`,
on explicit fuel (`none` = fuel exhausted, or `pop` failing on a frontier that
claimed to be non-empty).  Returns the result together with the engine state
left behind by the invocation. -/
def searchLoop [DecidableEq S] (cfg : EngineCfg S A σ) :
    Nat → EngineState S σ → Option (SearchResult S A × EngineState S σ)
  | 0, _ => none
  | Nat.succ fuel, st =>
    if cfg.ops.is_empty st.frontier then some (build_failure_result st, st)
    else
      let st := { st with
        max_frontier_size := max st.max_frontier_size (cfg.ops.size st.frontier) }
      match cfg.ops.pop st.frontier with
      | none => none
      | some (current, frontier') =>
        let st := { st with frontier := frontier' }
        if cfg.is_goal current.state then
          some (build_success_result st current, st)
        else if cfg.graph_search then
          if cfg.allow_revisit then
            let current_cost := current.path_cost
            match lookupKey st.best_cost current.state with
            | some best =>
              if current_cost > best then searchLoop cfg fuel st
              else
                let st := { st with
                  best_cost := insertKey st.best_cost current.state current_cost,
                  nodes_expanded := st.nodes_expanded + 1 }
                searchLoop cfg fuel (expand_node cfg current st)
            | none =>
              let st := { st with
                best_cost := insertKey st.best_cost current.state current_cost,
                nodes_expanded := st.nodes_expanded + 1 }
              searchLoop cfg fuel (expand_node cfg current st)
          else
            if current.state ∈ st.closed then searchLoop cfg fuel st
            else
              let st := { st with
                closed := current.state :: st.closed,
                nodes_expanded := st.nodes_expanded + 1 }
              searchLoop cfg fuel (expand_node cfg current st)
        else
          let st := { st with nodes_expanded := st.nodes_expanded + 1 }
          searchLoop cfg fuel (expand_node cfg current st)

/-- `SearchEngine.search`: reset the statistics, the closed set and the
best-cost map (the frontier is left as it is), push the root node, record the
initial best cost in revisit mode, then run the main loop. -/
def search [DecidableEq S] (cfg : EngineCfg S A σ) (fuel : Nat)
    (st0 : EngineState S σ) : Option (SearchResult S A × EngineState S σ) :=
  let st : EngineState S σ :=
    { frontier := st0.frontier
      closed := []
      best_cost := []
      nodes_expanded := 0
      nodes_generated := 0
      max_frontier_size := 0 }
  let root : Node S A := Node.mk cfg.initial_state none none 0 0
  let priority := cfg.priority_fn root cfg.heuristic
  let st := { st with
    frontier := cfg.ops.push st.frontier root priority,
    nodes_generated := 1 }
  let st :=
    if cfg.allow_revisit then
      { st with best_cost := insertKey st.best_cost cfg.initial_state 0 }
    else st
  searchLoop cfg fuel st

end SearchEngine

/-- `uniform_cost_priority` from `strategies/uninformed/ucs.py`:
priority = g(n). -/
def uniform_cost_priority (node : Node S A) (heuristic : S → ℚ) : ℚ :=
  node.path_cost

/-- The sequence of nodes returned by `k` successive pops. -/
def popSeqOps {σ : Type} (ops : FrontierOps S A σ) : Nat → σ → List (Node S A)
  | 0, _ => []
  | Nat.succ k, f =>
    match ops.pop f with
    | none => []
    | some (n, f') => n :: popSeqOps ops k f'

/-! ### Concrete test problems -/

/-- A four-element state space for the concrete problems. -/
inductive St : Type
  | A | B | C | D
deriving DecidableEq

/-- A fresh engine over the priority-queue frontier. -/
def pqInit : EngineState St (PriorityQueueFrontier St Nat) :=
  ⟨PriorityQueueFrontier.empty, [], [], 0, 0, 0⟩

/-- A fresh engine over the FIFO frontier. -/
def fifoInit : EngineState St (FIFOQueueFrontier St Nat) :=
  ⟨FIFOQueueFrontier.empty, [], [], 0, 0, 0⟩

/-- The 3-node problem of the spec's `allow_revisit` test: A→B costs 5
(listed first), A→C costs 1, C→B costs 1; goal B; uniform-cost priority,
priority-queue frontier, `graph_search = true`, `allow_revisit = true`. -/
def cfgC2 : EngineCfg St Nat (PriorityQueueFrontier St Nat) :=
  { ops := pqOps
    initial_state := St.A
    is_goal := fun s => decide (s = St.B)
    get_successors := fun s =>
      match s with
      | St.A => [(St.B, 0, 5), (St.C, 1, 1)]
      | St.C => [(St.B, 2, 1)]
      | _ => []
    priority_fn := uniform_cost_priority
    heuristic := fun _ => 0
    graph_search := true
    allow_revisit := true }

/-- A problem whose first search succeeds while leaving nodes behind in the
frontier: A has successors B, C, D; B is the goal; FIFO frontier, strict
graph search. -/
def cfgSerial : EngineCfg St Nat (FIFOQueueFrontier St Nat) :=
  { ops := fifoOps
    initial_state := St.A
    is_goal := fun s => decide (s = St.B)
    get_successors := fun s =>
      match s with
      | St.A => [(St.B, 0, 1), (St.C, 1, 1), (St.D, 2, 1)]
      | _ => []
    priority_fn := uniform_cost_priority
    heuristic := fun _ => 0
    graph_search := true
    allow_revisit := false }

/-- A root node for state A. -/
def nodeA : Node St Nat := Node.mk St.A none none 0 0

/-- Another node with state A (different action and cost). -/
def nodeA7 : Node St Nat := Node.mk St.A none (some 7) 1 1

/-- A node for state A with path cost 5. -/
def nodeA5 : Node St Nat := Node.mk St.A none none 5 0

/-- A LIFO stack already holding state A. -/
def lifoW : LIFOStackFrontier St Nat := ⟨[nodeA], [St.A]⟩

/-- A FIFO queue already holding state A. -/
def fifoW : FIFOQueueFrontier St Nat := ⟨[nodeA], [St.A]⟩

/-- A revisit-mode configuration whose goal is state A. -/
def cfgC10 : EngineCfg St Nat (FIFOQueueFrontier St Nat) :=
  { ops := fifoOps
    initial_state := St.A
    is_goal := fun s => decide (s = St.A)
    get_successors := fun _ => []
    priority_fn := uniform_cost_priority
    heuristic := fun _ => 0
    graph_search := true
    allow_revisit := true }

/-- An engine state about to pop the goal node `nodeA5` of cost 5 while the
best-cost map records 0 for state A. -/
def stC10 : EngineState St (FIFOQueueFrontier St Nat) :=
  ⟨⟨[nodeA5], [St.A]⟩, [], [(St.A, 0)], 0, 0, 0⟩

/-- The engine state `stC10` after its goal node has been popped. -/
def stC10' : EngineState St (FIFOQueueFrontier St Nat) :=
  ⟨⟨[], []⟩, [], [(St.A, 0)], 0, 0, 1⟩

/-- The heap of a priority queue obtained by pushing `nodes` in order at one
shared priority `p` into an empty queue, counters starting at `k`. -/
def canonHeap (p : ℚ) : Nat → List (Node S A) → List (Entry S A)
  | _, [] => []
  | k, n :: rest => ⟨p, k, n⟩ :: canonHeap p (k + 1) rest

/-- The entry finder of the same queue; later pushes bind nearer the front. -/
def canonEF (p : ℚ) : Nat → List (Node S A) → List (S × Entry S A)
  | _, [] => []
  | k, n :: rest => canonEF p (k + 1) rest ++ [(n.state, ⟨p, k, n⟩)]

/-- A node for state B with path cost 5. -/
def nodeB : Node St Nat := Node.mk St.B none none 5 1

/-- A cheaper node for state B reached through A. -/
def nodeB2 : Node St Nat := Node.mk St.B (some nodeA) (some 9) 2 2

/-- A node for state C with path cost 1. -/
def nodeC : Node St Nat := Node.mk St.C none none 1 1

/-- A priority queue holding `nodeB` at priority 5. -/
def q3 : PriorityQueueFrontier St Nat :=
  ⟨[⟨5, 0, nodeB⟩], [(St.B, ⟨5, 0, nodeB⟩)], 1⟩

/-- A node as the engine builds them: the root has no action and depth 0,
and every child records an action and its parent's depth plus one. -/
def wfNode : Node S A → Prop
  | .mk _ none a _ d => a = none ∧ d = 0
  | .mk _ (some q) a _ d => a ≠ none ∧ d = q.depth + 1 ∧ wfNode q

/-- `Reaches succ init s`: state `s` is reachable from `init` along the
successor function. -/
inductive Reaches (succ : S → List (S × A × ℚ)) (init : S) : S → Prop
  | refl : Reaches succ init init
  | step {s t : S} {a : A} {c : ℚ} :
      Reaches succ init s → (t, a, c) ∈ succ s → Reaches succ init t

/-- Soundness contract for a frontier implementation, relative to a
representation invariant `inv`, an abstraction `stSet` to the finite set of
live states, and an abstraction `nodes` to the stored nodes.  Each of the
three concrete frontiers satisfies it (witnessed below for the FIFO queue). -/
structure FrontierSound [DecidableEq S] {σ : Type} (ops : FrontierOps S A σ)
    (inv : σ → Prop) (stSet : σ → Finset S)
    (nodes : σ → Set (Node S A)) : Prop where
  inv_push : ∀ f n p, inv f → inv (ops.push f n p)
  inv_pop : ∀ f n f', inv f → ops.pop f = some (n, f') → inv f'
  stSet_push : ∀ f n p, inv f →
    stSet (ops.push f n p) = insert n.state (stSet f)
  pop_total : ∀ f, inv f → ops.is_empty f = false → ∃ n f', ops.pop f = some (n, f')
  empty_iff : ∀ f, inv f → (ops.is_empty f = true ↔ stSet f = ∅)
  pop_mem : ∀ f n f', inv f → ops.pop f = some (n, f') →
    n.state ∈ stSet f ∧ stSet f' = (stSet f).erase n.state
  size_eq : ∀ f, inv f → ops.size f = (stSet f).card
  nodes_push : ∀ f n p, inv f → nodes (ops.push f n p) ⊆ insert n (nodes f)
  pop_node : ∀ f n f', inv f → ops.pop f = some (n, f') →
    n ∈ nodes f ∧ nodes f' ⊆ nodes f

/-- Representation invariant of the FIFO queue: queue states are pairwise
distinct and `state_set` is exactly the set of queued states. -/
def fifoInv (f : FIFOQueueFrontier S A) : Prop :=
  (f.queue.map Node.state).Nodup ∧ f.state_set.Nodup ∧
    ∀ s, s ∈ f.state_set ↔ s ∈ f.queue.map Node.state

/-- The live states of a FIFO queue. -/
def fifoStSet [DecidableEq S] (f : FIFOQueueFrontier S A) : Finset S :=
  (f.queue.map Node.state).toFinset

/-- The stored nodes of a FIFO queue. -/
def fifoNodes (f : FIFOQueueFrontier S A) : Set (Node S A) :=
  {n | n ∈ f.queue}

/-- The invariant maintained by the strict-graph-search loop of claim C4:
everything seen is reachable (inside `R`), every state is accounted for
(closed or in the frontier, closed under expansion), and `nodes_expanded`
counts the closed set exactly. -/
structure LoopInv [DecidableEq S] {σ : Type} (cfg : EngineCfg S A σ)
    (inv : σ → Prop) (stSet : σ → Finset S) (R : Finset S)
    (st : EngineState S σ) : Prop where
  hinv : inv st.frontier
  closed_sub : ∀ s ∈ st.closed, s ∈ R
  frontier_sub : ∀ s ∈ stSet st.frontier, s ∈ R
  covered : cfg.initial_state ∈ st.closed ∨ cfg.initial_state ∈ stSet st.frontier
  succ_closed : ∀ s ∈ st.closed,
    ∀ t ∈ (cfg.get_successors s).map (fun x => x.1),
      t ∈ st.closed ∨ t ∈ stSet st.frontier
  closed_nodup : st.closed.Nodup
  exp_eq : st.nodes_expanded = st.closed.length

/-- Termination measure of the strict-graph-search loop: unexpanded
reachable states weighted by their successor counts, plus the live frontier
size; it strictly decreases on every iteration. -/
def searchMeasure [DecidableEq S] {σ : Type} (cfg : EngineCfg S A σ)
    (stSet : σ → Finset S) (R : Finset S) (st : EngineState S σ) : Nat :=
  (∑ s ∈ R \ st.closed.toFinset, (1 + (cfg.get_successors s).length)) +
    (stSet st.frontier).card

/-- A problem whose goal is unreachable: the single state A with no
successors and an always-false goal test (FIFO frontier, strict search). -/
def cfgC4 : EngineCfg St Nat (FIFOQueueFrontier St Nat) :=
  { ops := fifoOps
    initial_state := St.A
    is_goal := fun _ => false
    get_successors := fun _ => []
    priority_fn := uniform_cost_priority
    heuristic := fun _ => 0
    graph_search := true
    allow_revisit := false }

/-! ### Helper lemmas -/

theorem popAux_ef_nil [DecidableEq S] (fuel : Nat) (heap : List (Entry S A)) :
    PriorityQueueFrontier.popAux fuel heap ([] : List (S × Entry S A)) = none := by
  induction fuel generalizing heap with
  | zero => rfl
  | succ k ih =>
    unfold PriorityQueueFrontier.popAux
    cases h : popMinEntry heap with
    | none => rfl
    | some er => simp [lookupKey, ih]

/-! ### Claims -/

/-- C1 fails on the code: `search()` resets the statistics, the closed set and
the best-cost map, but never clears `self.frontier`.  On `cfgSerial` the first
invocation succeeds leaving states C and D in the frontier, and the second
fully-serialized invocation on the same engine generates 2 nodes where the
first generated 4 — so it did not start from the same empty containers. -/
theorem C1_counterexample :
    (SearchEngine.search cfgSerial 20 fifoInit).map
        (fun p => (p.1.nodes_generated, p.2.frontier.queue.map Node.state)) =
      some (4, [St.C, St.D]) ∧
    ((SearchEngine.search cfgSerial 20 fifoInit).bind
        (fun p => SearchEngine.search cfgSerial 20 p.2)).map
        (fun p => p.1.nodes_generated) = some 2 :=
  ⟨by with_unfolding_all rfl, by with_unfolding_all rfl⟩

/-- C1 (amended): at the start of each `search()` invocation the statistics,
the closed set and the best-cost map are reset to empty, but the frontier is
not cleared — the invocation depends on the prior engine state only through
the frontier it left behind. -/
theorem C1_amended_reset_behavior {σ : Type} [DecidableEq S]
    (cfg : EngineCfg S A σ) (fuel : Nat) (st0 : EngineState S σ) :
    SearchEngine.search cfg fuel st0 =
      SearchEngine.search cfg fuel ⟨st0.frontier, [], [], 0, 0, 0⟩ := rfl

/-- C2: on the 3-node problem (A→B cost 5 listed first, A→C cost 1, C→B
cost 1) with the priority-queue frontier, uniform-cost priority,
`graph_search = true` and `allow_revisit = true`, the search succeeds with
path [A, C, B] and total cost 2 — in particular it does not return the path
[A, B] of cost 5. -/
theorem C2_allow_revisit_returns_cheapest_path :
    (SearchEngine.search cfgC2 20 pqInit).map
        (fun p => (p.1.success, p.1.path, p.1.total_cost)) =
      some (true, [St.A, St.C, St.B], ((2 : ℚ) : WithTop ℚ)) ∧
    (SearchEngine.search cfgC2 20 pqInit).map (fun p => p.1.path) ≠
      some [St.A, St.B] :=
  ⟨by with_unfolding_all rfl, by with_unfolding_all decide⟩

/-- C6: for the LIFO stack and the FIFO queue, pushing a node whose state is
already present leaves the frontier unchanged — hence `size` and every future
pop sequence are exactly those of the frontier without the duplicate push. -/
theorem C6_duplicate_push_is_noop [DecidableEq S]
    (fL : LIFOStackFrontier S A) (nL : Node S A) (pL : ℚ)
    (fF : FIFOQueueFrontier S A) (nF : Node S A) (pF : ℚ)
    (hL : nL.state ∈ fL.state_set) (hF : nF.state ∈ fF.state_set) :
    (fL.push nL pL = fL ∧ (fL.push nL pL).size = fL.size ∧
      ∀ k, popSeqOps lifoOps k (fL.push nL pL) = popSeqOps lifoOps k fL) ∧
    (fF.push nF pF = fF ∧ (fF.push nF pF).size = fF.size ∧
      ∀ k, popSeqOps fifoOps k (fF.push nF pF) = popSeqOps fifoOps k fF) := by
  have h1 : fL.push nL pL = fL := by simp [LIFOStackFrontier.push, hL]
  have h2 : fF.push nF pF = fF := by simp [FIFOQueueFrontier.push, hF]
  exact ⟨⟨h1, by rw [h1], fun k => by rw [h1]⟩,
         ⟨h2, by rw [h2], fun k => by rw [h2]⟩⟩

/-- Witness for C6 at a concrete stack and queue each already holding state A. -/
theorem C6_duplicate_push_is_noop_witness :
    nodeA.state ∈ lifoW.state_set ∧ nodeA7.state ∈ fifoW.state_set ∧
    lifoW.push nodeA 3 = lifoW ∧ fifoW.push nodeA7 2 = fifoW :=
  ⟨by decide, by decide,
   (C6_duplicate_push_is_noop lifoW nodeA 3 fifoW nodeA7 2
      (by decide) (by decide)).1.1,
   (C6_duplicate_push_is_noop lifoW nodeA 3 fifoW nodeA7 2
      (by decide) (by decide)).2.1⟩

/-- C8 fails on the code as stated "for every result returned by search()":
because the frontier is not reset between invocations, the second serialized
invocation of `cfgSerial` returns nodes_expanded = 3 > nodes_generated = 2. -/
theorem C8_counterexample :
    ((SearchEngine.search cfgSerial 20 fifoInit).bind
        (fun p => SearchEngine.search cfgSerial 20 p.2)).map
        (fun p => (p.1.nodes_expanded, p.1.nodes_generated,
          decide (p.1.nodes_generated ≥ p.1.nodes_expanded))) =
      some (3, 2, false) := by with_unfolding_all rfl

/-- C9: popping any of the three frontier variants while `is_empty` holds
signals the empty-structure error, modelled as `pop = none`. -/
theorem C9_pop_on_empty_frontier_errors [DecidableEq S]
    (fL : LIFOStackFrontier S A) (fF : FIFOQueueFrontier S A)
    (q : PriorityQueueFrontier S A)
    (hL : fL.is_empty = true) (hF : fF.is_empty = true)
    (hQ : q.is_empty = true) :
    fL.pop = none ∧ fF.pop = none ∧ q.pop = none := by
  refine ⟨?_, ?_, ?_⟩
  · cases h : fL.stack with
    | nil => simp [LIFOStackFrontier.pop, h]
    | cons a t => simp [LIFOStackFrontier.is_empty, h] at hL
  · cases h : fF.queue with
    | nil => simp [FIFOQueueFrontier.pop, h]
    | cons a t => simp [FIFOQueueFrontier.is_empty, h] at hF
  · cases h : q.entry_finder with
    | nil => simp [PriorityQueueFrontier.pop, h, popAux_ef_nil]
    | cons a t => simp [PriorityQueueFrontier.is_empty, h] at hQ

/-- Witness for C9: the three empty frontiers (the priority queue carrying a
stale heap entry, exercising lazy deletion) all refuse to pop. -/
theorem C9_pop_on_empty_frontier_errors_witness :
    (LIFOStackFrontier.empty : LIFOStackFrontier St Nat).is_empty = true ∧
    (⟨[⟨5, 0, nodeA5⟩], [], 1⟩ :
      PriorityQueueFrontier St Nat).is_empty = true ∧
    ((LIFOStackFrontier.empty : LIFOStackFrontier St Nat).pop = none ∧
      (FIFOQueueFrontier.empty : FIFOQueueFrontier St Nat).pop = none ∧
      (⟨[⟨5, 0, nodeA5⟩], [], 1⟩ :
        PriorityQueueFrontier St Nat).pop = none) :=
  ⟨by decide, by decide,
   C9_pop_on_empty_frontier_errors LIFOStackFrontier.empty FIFOQueueFrontier.empty
     ⟨[⟨5, 0, nodeA5⟩], [], 1⟩ (by decide) (by decide) (by decide)⟩

/-- C10: the goal test on a popped node precedes the best-cost revisit check:
with `graph_search` and `allow_revisit` both set, a popped node satisfying the
goal test ends the search successfully with a result built from that node,
even when its path cost strictly exceeds the recorded best cost for its
state. -/
theorem C10_goal_test_precedes_revisit_check {σ : Type} [DecidableEq S]
    (cfg : EngineCfg S A σ) (st : EngineState S σ) (fuel : Nat)
    (n : Node S A) (f' : σ) (b : ℚ)
    (hgraph : cfg.graph_search = true) (hrev : cfg.allow_revisit = true)
    (hne : cfg.ops.is_empty st.frontier = false)
    (hpop : cfg.ops.pop st.frontier = some (n, f'))
    (hgoal : cfg.is_goal n.state = true)
    (hbest : lookupKey st.best_cost n.state = some b)
    (hworse : b < n.path_cost) :
    SearchEngine.searchLoop cfg (fuel + 1) st =
      some (SearchEngine.build_success_result
              { st with
                max_frontier_size :=
                  max st.max_frontier_size (cfg.ops.size st.frontier),
                frontier := f' } n,
            { st with
              max_frontier_size :=
                max st.max_frontier_size (cfg.ops.size st.frontier),
              frontier := f' }) := by
  simp [SearchEngine.searchLoop, hne, hpop, hgoal]

/-- Witness for C10: a frontier holding one goal node of cost 5 while the
best-cost map records 0 for its state; the loop still returns success. -/
theorem C10_goal_test_precedes_revisit_check_witness :
    lookupKey stC10.best_cost nodeA5.state = some 0 ∧ (0 : ℚ) < nodeA5.path_cost ∧
    SearchEngine.searchLoop cfgC10 3 stC10 =
      some (SearchEngine.build_success_result stC10' nodeA5, stC10') :=
  ⟨rfl, by decide,
   C10_goal_test_precedes_revisit_check cfgC10 stC10 2 nodeA5 ⟨[], []⟩ 0
     rfl rfl rfl rfl rfl rfl (by decide)⟩

/-! ### Priority-queue order theory -/

theorem entryLE_refl (e : Entry S A) : entryLE e e := Or.inr ⟨rfl, le_refl _⟩

theorem entryLE_trans {e f g : Entry S A} (h1 : entryLE e f) (h2 : entryLE f g) :
    entryLE e g := by
  rcases h1 with h1 | ⟨h1, h1'⟩ <;> rcases h2 with h2 | ⟨h2, h2'⟩
  · exact Or.inl (lt_trans h1 h2)
  · exact Or.inl (h2 ▸ h1)
  · exact Or.inl (h1 ▸ h2)
  · exact Or.inr ⟨h1.trans h2, le_trans h1' h2'⟩

theorem entryLE_total (e f : Entry S A) : entryLE e f ∨ entryLE f e := by
  rcases lt_trichotomy e.priority f.priority with h | h | h
  · exact Or.inl (Or.inl h)
  · rcases le_total e.count f.count with hc | hc
    · exact Or.inl (Or.inr ⟨h, hc⟩)
    · exact Or.inr (Or.inr ⟨h.symm, hc⟩)
  · exact Or.inr (Or.inl h)

theorem entryLE_priority {e f : Entry S A} (h : entryLE e f) :
    e.priority ≤ f.priority := by
  rcases h with h | ⟨h, _⟩
  · exact le_of_lt h
  · exact le_of_eq h

theorem popMinEntry_eq_none {l : List (Entry S A)} :
    popMinEntry l = none ↔ l = [] := by
  cases l with
  | nil => simp [popMinEntry]
  | cons x t =>
    simp only [popMinEntry]
    cases ht : popMinEntry t with
    | none => simp
    | some pr =>
      obtain ⟨m, r⟩ := pr
      by_cases h : entryLE x m <;> simp [h]

theorem popMinEntry_perm : ∀ {l : List (Entry S A)} {e rest},
    popMinEntry l = some (e, rest) → l.Perm (e :: rest) := by
  intro l
  induction l with
  | nil => intro e rest h; simp [popMinEntry] at h
  | cons x t ih =>
    intro e rest h
    simp only [popMinEntry] at h
    cases ht : popMinEntry t with
    | none =>
      simp only [ht] at h
      obtain rfl : t = [] := popMinEntry_eq_none.mp ht
      simp only [Option.some.injEq, Prod.mk.injEq] at h
      obtain ⟨rfl, rfl⟩ := h
      exact List.Perm.refl _
    | some pr =>
      obtain ⟨m, rest'⟩ := pr
      simp only [ht] at h
      by_cases hle : entryLE x m
      · rw [if_pos hle] at h
        simp only [Option.some.injEq, Prod.mk.injEq] at h
        obtain ⟨rfl, rfl⟩ := h
        exact List.Perm.refl _
      · rw [if_neg hle] at h
        simp only [Option.some.injEq, Prod.mk.injEq] at h
        obtain ⟨rfl, rfl⟩ := h
        exact ((ih ht).cons x).trans (List.Perm.swap m x rest')

theorem popMinEntry_mem {l : List (Entry S A)} {e rest}
    (h : popMinEntry l = some (e, rest)) : e ∈ l :=
  (popMinEntry_perm h).symm.subset (List.mem_cons_self e rest)

theorem popMinEntry_rest_mem {l : List (Entry S A)} {e rest x}
    (h : popMinEntry l = some (e, rest)) (hx : x ∈ rest) : x ∈ l :=
  (popMinEntry_perm h).symm.subset (List.mem_cons_of_mem e hx)

theorem popMinEntry_min : ∀ {l : List (Entry S A)} {e rest},
    popMinEntry l = some (e, rest) → ∀ x ∈ l, entryLE e x := by
  intro l
  induction l with
  | nil => intro e rest h; simp [popMinEntry] at h
  | cons y t ih =>
    intro e rest h x hx
    simp only [popMinEntry] at h
    cases ht : popMinEntry t with
    | none =>
      simp only [ht] at h
      obtain rfl : t = [] := popMinEntry_eq_none.mp ht
      simp only [Option.some.injEq, Prod.mk.injEq] at h
      obtain ⟨rfl, rfl⟩ := h
      rcases List.mem_singleton.mp hx with rfl
      exact entryLE_refl x
    | some pr =>
      obtain ⟨m, rest'⟩ := pr
      simp only [ht] at h
      by_cases hle : entryLE y m
      · rw [if_pos hle] at h
        simp only [Option.some.injEq, Prod.mk.injEq] at h
        obtain ⟨rfl, rfl⟩ := h
        rcases List.mem_cons.mp hx with rfl | hx
        · exact entryLE_refl x
        · exact entryLE_trans hle (ih ht x hx)
      · rw [if_neg hle] at h
        simp only [Option.some.injEq, Prod.mk.injEq] at h
        obtain ⟨rfl, rfl⟩ := h
        rcases List.mem_cons.mp hx with h' | h'
        · subst h'
          exact (entryLE_total _ _).resolve_left hle
        · exact ih ht x h'

/-! ### Association-list lemmas -/

theorem lookupKey_insertKey_self [DecidableEq S] {β : Type}
    (l : List (S × β)) (s : S) (v : β) :
    lookupKey (insertKey l s v) s = some v := by
  simp [insertKey, lookupKey]

theorem lookupKey_append [DecidableEq S] {β : Type}
    (xs ys : List (S × β)) (s : S) :
    lookupKey (xs ++ ys) s =
      match lookupKey xs s with
      | some v => some v
      | none => lookupKey ys s := by
  induction xs with
  | nil => simp [lookupKey]
  | cons x t ih =>
    obtain ⟨k, v⟩ := x
    by_cases h : k = s <;> simp [lookupKey, h, ih]

theorem eraseKey_append [DecidableEq S] {β : Type}
    (xs ys : List (S × β)) (s : S) :
    eraseKey (xs ++ ys) s = eraseKey xs s ++ eraseKey ys s := by
  induction xs with
  | nil => simp [eraseKey]
  | cons x t ih =>
    obtain ⟨k, v⟩ := x
    by_cases h : k = s <;> simp [eraseKey, h, ih]

theorem eraseKey_of_lookup_none [DecidableEq S] {β : Type}
    {l : List (S × β)} {s : S} (h : lookupKey l s = none) :
    eraseKey l s = l := by
  induction l with
  | nil => rfl
  | cons x t ih =>
    obtain ⟨k, v⟩ := x
    by_cases hk : k = s
    · simp [lookupKey, hk] at h
    · simp only [lookupKey, if_neg hk] at h
      simp [eraseKey, hk, ih h]

/-! ### The pop loop -/

theorem popAux_spec [DecidableEq S] :
    ∀ {fuel : Nat} {heap : List (Entry S A)} {ef n' heap' ef'},
      PriorityQueueFrontier.popAux fuel heap ef = some (n', heap', ef') →
      ∃ e ∈ heap, e.node = n' ∧ ef' = eraseKey ef e.node.state ∧
        ∃ cur, lookupKey ef e.node.state = some cur ∧
          cur.priority = e.priority ∧ cur.count = e.count ∧
          cur.node.state = e.node.state := by
  intro fuel
  induction fuel with
  | zero =>
    intro heap ef n' heap' ef' h
    simp [PriorityQueueFrontier.popAux] at h
  | succ k ih =>
    intro heap ef n' heap' ef' h
    simp only [PriorityQueueFrontier.popAux] at h
    cases hm : popMinEntry heap with
    | none => simp only [hm] at h; exact Option.noConfusion h
    | some pr =>
      obtain ⟨e0, rest⟩ := pr
      simp only [hm] at h
      cases hl : lookupKey ef e0.node.state with
      | none =>
        simp only [hl] at h
        obtain ⟨e, he, hrest⟩ := ih h
        exact ⟨e, popMinEntry_rest_mem hm he, hrest⟩
      | some cur =>
        simp only [hl] at h
        by_cases hc : cur.priority = e0.priority ∧ cur.count = e0.count ∧
            cur.node.state = e0.node.state
        · rw [if_pos hc] at h
          simp only [Option.some.injEq, Prod.mk.injEq] at h
          obtain ⟨rfl, rfl, rfl⟩ := h
          exact ⟨e0, popMinEntry_mem hm, rfl, rfl, cur, hl, hc⟩
        · rw [if_neg hc] at h
          obtain ⟨e, he, hrest⟩ := ih h
          exact ⟨e, popMinEntry_rest_mem hm he, hrest⟩

theorem popAux_min [DecidableEq S] :
    ∀ {fuel : Nat} {heap : List (Entry S A)} {ef n' heap' ef'},
      (∀ s e, lookupKey ef s = some e → e ∈ heap ∧ e.node.state = s) →
      PriorityQueueFrontier.popAux fuel heap ef = some (n', heap', ef') →
      ∃ e ∈ heap, e.node = n' ∧
        ∀ s f, lookupKey ef s = some f → entryLE e f := by
  intro fuel
  induction fuel with
  | zero =>
    intro heap ef n' heap' ef' _ h
    simp [PriorityQueueFrontier.popAux] at h
  | succ k ih =>
    intro heap ef n' heap' ef' hinv h
    simp only [PriorityQueueFrontier.popAux] at h
    cases hm : popMinEntry heap with
    | none => simp only [hm] at h; exact Option.noConfusion h
    | some pr =>
      obtain ⟨e0, rest⟩ := pr
      simp only [hm] at h
      have hstep : ∀ {s e}, lookupKey ef s = some e → e ≠ e0 →
          e ∈ rest ∧ e.node.state = s := by
        intro s e hse hne
        obtain ⟨hmem, hst⟩ := hinv s e hse
        refine ⟨?_, hst⟩
        have : e ∈ e0 :: rest := (popMinEntry_perm hm).subset hmem
        rcases List.mem_cons.mp this with rfl | hr
        · exact absurd rfl hne
        · exact hr
      cases hl : lookupKey ef e0.node.state with
      | none =>
        simp only [hl] at h
        have hinv' : ∀ s e, lookupKey ef s = some e → e ∈ rest ∧ e.node.state = s := by
          intro s e hse
          refine hstep hse ?_
          rintro rfl
          have := (hinv s e hse).2
          rw [this] at hl
          rw [hse] at hl
          exact Option.noConfusion hl
        obtain ⟨e, he, hnode, hmin⟩ := ih hinv' h
        exact ⟨e, popMinEntry_rest_mem hm he, hnode, hmin⟩
      | some cur =>
        simp only [hl] at h
        by_cases hc : cur.priority = e0.priority ∧ cur.count = e0.count ∧
            cur.node.state = e0.node.state
        · rw [if_pos hc] at h
          simp only [Option.some.injEq, Prod.mk.injEq] at h
          obtain ⟨rfl, rfl, rfl⟩ := h
          refine ⟨e0, popMinEntry_mem hm, rfl, ?_⟩
          intro s f hsf
          exact popMinEntry_min hm f (hinv s f hsf).1
        · rw [if_neg hc] at h
          have hinv' : ∀ s e, lookupKey ef s = some e → e ∈ rest ∧ e.node.state = s := by
            intro s e hse
            refine hstep hse ?_
            rintro rfl
            have hst := (hinv s e hse).2
            subst hst
            rw [hse] at hl
            cases hl
            exact hc ⟨rfl, rfl, rfl⟩
          obtain ⟨e, he, hnode, hmin⟩ := ih hinv' h
          exact ⟨e, popMinEntry_rest_mem hm he, hnode, hmin⟩

/-- C3: priority-queue update-on-improve.  With state `n.state` stored at
entry `old` and heap counters below the queue's counter: (i) a push with
priority not strictly lower leaves the queue exactly unchanged (hence size,
contains and every future pop sequence are unchanged); (ii) a push with
strictly lower priority rebinds the state to the fresh entry, and any
subsequent pop yielding this state returns the newly pushed node, never the
superseded one; (iii) any pop returns only a node whose state is currently
bound in the finder (matching the binding's state) and unbinds it — a
lazily-deleted, superseded heap entry can never be returned. -/
theorem C3_pq_update_on_improve [DecidableEq S]
    (q : PriorityQueueFrontier S A) (n : Node S A) (p : ℚ) (old : Entry S A)
    (hfound : lookupKey q.entry_finder n.state = some old)
    (hcnt : ∀ e ∈ q.heap, e.count < q.counter) :
    (¬ p < old.priority → q.push n p = q) ∧
    (p < old.priority →
      lookupKey (q.push n p).entry_finder n.state =
          some ⟨p, q.counter, n⟩ ∧
      ∀ n' q', (q.push n p).pop = some (n', q') → n'.state = n.state →
        n' = n) ∧
    (∀ n' q', q.pop = some (n', q') →
      ∃ cur, lookupKey q.entry_finder n'.state = some cur ∧
        cur.node.state = n'.state ∧
        q'.entry_finder = eraseKey q.entry_finder n'.state) := by
  refine ⟨?_, ?_, ?_⟩
  · intro hge
    simp [PriorityQueueFrontier.push, hfound, hge]
  · intro hlt
    have hq1 : q.push n p =
        ⟨q.heap ++ [⟨p, q.counter, n⟩],
         insertKey (eraseKey q.entry_finder n.state) n.state ⟨p, q.counter, n⟩,
         q.counter + 1⟩ := by
      simp [PriorityQueueFrontier.push, hfound, hlt]
    constructor
    · rw [hq1]
      exact lookupKey_insertKey_self _ _ _
    · intro n' q' hpop hstate
      rw [hq1] at hpop
      simp only [PriorityQueueFrontier.pop] at hpop
      cases haux : PriorityQueueFrontier.popAux
          (q.heap ++ [(⟨p, q.counter, n⟩ : Entry S A)]).length
          (q.heap ++ [⟨p, q.counter, n⟩])
          (insertKey (eraseKey q.entry_finder n.state) n.state
            ⟨p, q.counter, n⟩) with
      | none => simp only [haux] at hpop; exact Option.noConfusion hpop
      | some res =>
        obtain ⟨nn, heap', ef'⟩ := res
        simp only [haux] at hpop
        obtain ⟨rfl, rfl⟩ : nn = n' ∧ q' = ⟨heap', ef', q.counter + 1⟩ := by
          cases hpop
          exact ⟨rfl, rfl⟩
        obtain ⟨e, he, hnode, _, cur, hcur, hp, hcnt', hst⟩ := popAux_spec haux
        have hes : e.node.state = n.state := by rw [hnode, hstate]
        rw [hes] at hcur
        rw [lookupKey_insertKey_self] at hcur
        have hcur' : cur = ⟨p, q.counter, n⟩ := by
          cases hcur
          rfl
        rcases List.mem_append.mp he with hin | hin
        · exfalso
          have := hcnt e hin
          rw [← hcnt', hcur'] at this
          exact lt_irrefl _ this
        · rcases List.mem_singleton.mp hin with rfl
          exact hnode.symm.trans rfl
  · intro n' q' hpop
    simp only [PriorityQueueFrontier.pop] at hpop
    cases haux : PriorityQueueFrontier.popAux q.heap.length q.heap
        q.entry_finder with
    | none => simp only [haux] at hpop; exact Option.noConfusion hpop
    | some res =>
      obtain ⟨nn, heap', ef'⟩ := res
      simp only [haux] at hpop
      obtain ⟨rfl, rfl⟩ : nn = n' ∧ q' = ⟨heap', ef', q.counter⟩ := by
        cases hpop
        exact ⟨rfl, rfl⟩
      obtain ⟨e, he, hnode, hef, cur, hcur, hp, hc, hst⟩ := popAux_spec haux
      refine ⟨cur, ?_, ?_, ?_⟩
      · rw [← hnode]; exact hcur
      · rw [← hnode]; exact hst
      · rw [← hnode]; exact hef

/-- Witness for C3: pushing a cheaper node for state B (priority 2 below the
stored 5) rebinds the finder to the new entry. -/
theorem C3_pq_update_on_improve_witness :
    lookupKey q3.entry_finder nodeB2.state = some ⟨5, 0, nodeB⟩ ∧
    (2 : ℚ) < 5 ∧
    lookupKey (q3.push nodeB2 2).entry_finder nodeB2.state =
      some ⟨2, 1, nodeB2⟩ :=
  ⟨rfl, by decide,
   ((C3_pq_update_on_improve q3 nodeB2 2 ⟨5, 0, nodeB⟩ rfl
       (by decide)).2.1 (by decide)).1⟩

/-! ### Canonical queues: pushing distinct states at one priority -/

theorem canonHeap_cons (p : ℚ) (k : Nat) (n : Node S A) (rest : List (Node S A)) :
    canonHeap p k (n :: rest) = ⟨p, k, n⟩ :: canonHeap p (k + 1) rest := rfl

theorem canonEF_cons (p : ℚ) (k : Nat) (n : Node S A) (rest : List (Node S A)) :
    canonEF p k (n :: rest) =
      canonEF p (k + 1) rest ++ [(n.state, ⟨p, k, n⟩)] := rfl

theorem canonHeap_snoc (p : ℚ) :
    ∀ (nodes : List (Node S A)) (k : Nat) (n : Node S A),
      canonHeap p k (nodes ++ [n]) =
        canonHeap p k nodes ++ [⟨p, k + nodes.length, n⟩] := by
  intro nodes
  induction nodes with
  | nil => intro k n; simp [canonHeap]
  | cons x t ih =>
    intro k n
    have harith : k + 1 + t.length = k + (t.length + 1) := by omega
    simp [canonHeap, ih, harith]

theorem canonEF_snoc (p : ℚ) :
    ∀ (nodes : List (Node S A)) (k : Nat) (n : Node S A),
      canonEF p k (nodes ++ [n]) =
        (n.state, ⟨p, k + nodes.length, n⟩) :: canonEF p k nodes := by
  intro nodes
  induction nodes with
  | nil => intro k n; simp [canonEF]
  | cons x t ih =>
    intro k n
    have harith : k + 1 + t.length = k + (t.length + 1) := by omega
    simp [canonEF, ih, harith]

theorem canonEF_lookup_not_mem [DecidableEq S] (p : ℚ) :
    ∀ {nodes : List (Node S A)} {k : Nat} {s : S},
      s ∉ nodes.map Node.state → lookupKey (canonEF p k nodes) s = none := by
  intro nodes
  induction nodes with
  | nil => intro k s _; rfl
  | cons x t ih =>
    intro k s hs
    rw [List.map_cons, List.mem_cons] at hs
    push_neg at hs
    rw [canonEF_cons, lookupKey_append, ih hs.2]
    have hxs : ¬ x.state = s := fun h => hs.1 h.symm
    simp [lookupKey, hxs]

theorem canonEF_lookup_head [DecidableEq S] (p : ℚ) {n : Node S A}
    {rest : List (Node S A)} (k : Nat)
    (hnm : n.state ∉ rest.map Node.state) :
    lookupKey (canonEF p k (n :: rest)) n.state = some ⟨p, k, n⟩ := by
  rw [canonEF_cons, lookupKey_append, canonEF_lookup_not_mem p hnm]
  simp [lookupKey]

theorem eraseKey_canonEF_head [DecidableEq S] (p : ℚ) {n : Node S A}
    {rest : List (Node S A)} (k : Nat)
    (hnm : n.state ∉ rest.map Node.state) :
    eraseKey (canonEF p k (n :: rest)) n.state = canonEF p (k + 1) rest := by
  rw [canonEF_cons, eraseKey_append,
    eraseKey_of_lookup_none (canonEF_lookup_not_mem p hnm)]
  simp [eraseKey]

theorem popMinEntry_cons (e : Entry S A) (l : List (Entry S A)) :
    popMinEntry (e :: l) =
      match popMinEntry l with
      | none => some (e, [])
      | some (m, rest') =>
        if entryLE e m then some (e, l) else some (m, e :: rest') := rfl

theorem popMinEntry_canon (p : ℚ) :
    ∀ (rest : List (Node S A)) (k : Nat) (n : Node S A),
      popMinEntry (canonHeap p k (n :: rest)) =
        some (⟨p, k, n⟩, canonHeap p (k + 1) rest) := by
  intro rest
  induction rest with
  | nil => intro k n; simp [canonHeap, popMinEntry]
  | cons m t ih =>
    intro k n
    rw [canonHeap_cons, popMinEntry_cons]
    simp only [ih (k + 1) m]
    have hle : entryLE (⟨p, k, n⟩ : Entry S A) ⟨p, k + 1, m⟩ :=
      Or.inr ⟨rfl, Nat.le_succ k⟩
    rw [if_pos hle]

/-- One successful iteration of the pop loop: the heap minimum matches the
finder's current binding and is returned at once. -/
theorem popAux_hit [DecidableEq S] {heap rest' : List (Entry S A)}
    {ef : List (S × Entry S A)} {e : Entry S A} (m : Nat)
    (h1 : popMinEntry heap = some (e, rest'))
    (h2 : lookupKey ef e.node.state = some e) :
    PriorityQueueFrontier.popAux (m + 1) heap ef =
      some (e.node, rest', eraseKey ef e.node.state) := by
  simp only [PriorityQueueFrontier.popAux, h1, h2]
  simp

theorem pop_canon [DecidableEq S] (p : ℚ) (k c : Nat) (n : Node S A)
    (rest : List (Node S A)) (hnm : n.state ∉ rest.map Node.state) :
    PriorityQueueFrontier.pop
        ⟨canonHeap p k (n :: rest), canonEF p k (n :: rest), c⟩ =
      some (n, ⟨canonHeap p (k + 1) rest, canonEF p (k + 1) rest, c⟩) := by
  have haux := popAux_hit (S := S) (A := A)
      ((canonHeap p (k + 1) rest).length)
      (popMinEntry_canon p rest k n)
      (canonEF_lookup_head p k hnm)
  simp only [PriorityQueueFrontier.pop, canonHeap_cons, List.length_cons]
  rw [show canonHeap p k (n :: rest) = ⟨p, k, n⟩ :: canonHeap p (k + 1) rest
        from rfl] at haux
  rw [haux]
  rw [eraseKey_canonEF_head p k hnm]

theorem foldPush_canon [DecidableEq S] (p : ℚ) :
    ∀ (todo done : List (Node S A)),
      (((done ++ todo).map Node.state)).Nodup →
      todo.foldl (fun acc nd => acc.push nd p)
          (⟨canonHeap p 0 done, canonEF p 0 done, done.length⟩ :
            PriorityQueueFrontier S A) =
        ⟨canonHeap p 0 (done ++ todo), canonEF p 0 (done ++ todo),
         (done ++ todo).length⟩ := by
  intro todo
  induction todo with
  | nil => intro done _; simp
  | cons x t ih =>
    intro done hnd
    have hx : x.state ∉ done.map Node.state := by
      intro hmem
      rw [List.map_append] at hnd
      have hdisj := (List.nodup_append.mp hnd).2.2
      exact hdisj hmem (by simp)
    have hlook : lookupKey (canonEF p 0 done) x.state = none :=
      canonEF_lookup_not_mem p hx
    have hpush :
        (⟨canonHeap p 0 done, canonEF p 0 done, done.length⟩ :
            PriorityQueueFrontier S A).push x p =
          ⟨canonHeap p 0 (done ++ [x]), canonEF p 0 (done ++ [x]),
           (done ++ [x]).length⟩ := by
      simp only [PriorityQueueFrontier.push, hlook, insertKey,
        eraseKey_of_lookup_none hlook]
      rw [canonHeap_snoc, canonEF_snoc]
      simp
    rw [List.foldl_cons, hpush]
    have hnd' : (((done ++ [x]) ++ t).map Node.state).Nodup := by
      rw [List.append_assoc, List.singleton_append]
      exact hnd
    rw [ih (done ++ [x]) hnd']
    rw [List.append_assoc, List.singleton_append]

theorem canon_drain [DecidableEq S] (p : ℚ) :
    ∀ (nodes : List (Node S A)) (k c : Nat),
      (nodes.map Node.state).Nodup →
      popSeqOps pqOps nodes.length
          ⟨canonHeap p k nodes, canonEF p k nodes, c⟩ = nodes := by
  intro nodes
  induction nodes with
  | nil => intro k c _; rfl
  | cons n rest ih =>
    intro k c hnd
    rw [List.map_cons, List.nodup_cons] at hnd
    rw [List.length_cons]
    simp only [popSeqOps, pqOps]
    rw [pop_canon p k c n rest hnd.1]
    show n :: popSeqOps pqOps rest.length
        ⟨canonHeap p (k + 1) rest, canonEF p (k + 1) rest, c⟩ = n :: rest
    rw [ih (k + 1) c hnd.2]

/-- C5: with every finder binding backed by a heap entry of the same state,
`pop` returns a node backed by a heap entry whose priority is minimal among
the live (finder-bound) entries; and pushing any list of nodes with pairwise
distinct states at one shared priority into an empty queue, then popping as
many times, returns them in insertion order. -/
theorem C5_pq_min_pop_and_stable_ties [DecidableEq S]
    (q : PriorityQueueFrontier S A)
    (hinv : ∀ s e, lookupKey q.entry_finder s = some e →
      e ∈ q.heap ∧ e.node.state = s)
    (nodes : List (Node S A)) (p : ℚ)
    (hnd : (nodes.map Node.state).Nodup) :
    (∀ n' q', q.pop = some (n', q') →
      ∃ e ∈ q.heap, e.node = n' ∧
        ∀ s f, lookupKey q.entry_finder s = some f →
          e.priority ≤ f.priority) ∧
    popSeqOps pqOps nodes.length
        (nodes.foldl (fun acc nd => acc.push nd p)
          PriorityQueueFrontier.empty) = nodes := by
  constructor
  · intro n' q' hpop
    simp only [PriorityQueueFrontier.pop] at hpop
    cases haux : PriorityQueueFrontier.popAux q.heap.length q.heap
        q.entry_finder with
    | none => simp only [haux] at hpop; exact Option.noConfusion hpop
    | some res =>
      obtain ⟨nn, heap', ef'⟩ := res
      simp only [haux] at hpop
      have hn : nn = n' := by cases hpop; rfl
      subst hn
      obtain ⟨e, he, hnode, hmin⟩ := popAux_min hinv haux
      exact ⟨e, he, hnode, fun s f hsf => entryLE_priority (hmin s f hsf)⟩
  · have h0 := foldPush_canon p nodes [] (by simpa using hnd)
    rw [show (PriorityQueueFrontier.empty : PriorityQueueFrontier S A) =
          ⟨canonHeap p 0 [], canonEF p 0 [], ([] : List (Node S A)).length⟩
        from rfl]
    rw [h0]
    simpa using canon_drain p nodes 0 nodes.length hnd

/-- Witness for C5: from the empty queue (vacuously well-formed), pushing
`nodeB` then `nodeC` at priority 3 and popping twice returns them in
insertion order. -/
theorem C5_pq_min_pop_and_stable_ties_witness :
    (([nodeB, nodeC].map Node.state)).Nodup ∧
    popSeqOps pqOps 2
        ([nodeB, nodeC].foldl (fun acc nd => acc.push nd 3)
          PriorityQueueFrontier.empty) = [nodeB, nodeC] :=
  ⟨by decide,
   (C5_pq_min_pop_and_stable_ties PriorityQueueFrontier.empty
      (fun s e h => Option.noConfusion h) [nodeB, nodeC] 3 (by decide)).2⟩

/-! ### The FIFO queue satisfies the frontier contract -/

theorem removeFirst_sublist [DecidableEq S] :
    ∀ (l : List S) (x : S), (removeFirst l x).Sublist l := by
  intro l x
  induction l with
  | nil => simp [removeFirst]
  | cons y t ih =>
    by_cases hy : y = x
    · rw [removeFirst, if_pos hy]
      exact (List.Sublist.refl t).cons y
    · rw [removeFirst, if_neg hy]
      exact ih.cons₂ y

theorem removeFirst_nodup [DecidableEq S] {l : List S} {x : S} (h : l.Nodup) :
    (removeFirst l x).Nodup :=
  List.Nodup.sublist (removeFirst_sublist l x) h

theorem mem_removeFirst [DecidableEq S] :
    ∀ {l : List S} {x y : S}, l.Nodup →
      (y ∈ removeFirst l x ↔ y ∈ l ∧ y ≠ x) := by
  intro l
  induction l with
  | nil => intro x y _; simp [removeFirst]
  | cons z t ih =>
    intro x y h
    rw [List.nodup_cons] at h
    by_cases hz : z = x
    · subst hz
      rw [removeFirst, if_pos rfl]
      constructor
      · intro hy
        exact ⟨List.mem_cons_of_mem z hy, fun he => h.1 (he ▸ hy)⟩
      · rintro ⟨hy, hne⟩
        rcases List.mem_cons.mp hy with rfl | hy
        · exact absurd rfl hne
        · exact hy
    · rw [removeFirst, if_neg hz]
      constructor
      · intro hy
        rcases List.mem_cons.mp hy with rfl | hy
        · exact ⟨List.mem_cons_self _ _, fun he => hz (he ▸ rfl)⟩
        · obtain ⟨h1, h2⟩ := (ih h.2).mp hy
          exact ⟨List.mem_cons_of_mem z h1, h2⟩
      · rintro ⟨hy, hne⟩
        rcases List.mem_cons.mp hy with rfl | hy
        · exact List.mem_cons_self _ _
        · exact List.mem_cons_of_mem z ((ih h.2).mpr ⟨hy, hne⟩)

theorem fifoSound [DecidableEq S] :
    FrontierSound (fifoOps : FrontierOps S A (FIFOQueueFrontier S A))
      fifoInv fifoStSet fifoNodes := by
  constructor
  case inv_push =>
    intro f n p hf
    obtain ⟨hq, hs, hiff⟩ := hf
    simp only [fifoOps, FIFOQueueFrontier.push]
    by_cases hmem : n.state ∈ f.state_set
    · rw [if_pos hmem]; exact ⟨hq, hs, hiff⟩
    · rw [if_neg hmem]
      have hnq : n.state ∉ f.queue.map Node.state := fun h => hmem ((hiff _).mpr h)
      refine ⟨?_, ?_, ?_⟩
      · rw [List.map_append]
        refine List.Nodup.append hq (by simp) ?_
        intro a ha hb
        simp only [List.map_cons, List.map_nil, List.mem_singleton] at hb
        subst hb
        exact hnq ha
      · exact List.nodup_cons.mpr ⟨hmem, hs⟩
      · intro s
        simp only [List.mem_cons, List.map_append, List.mem_append,
          List.map_cons, List.map_nil, List.mem_singleton]
        rw [hiff s]
        tauto
  case inv_pop =>
    intro f n f' hf hpop
    obtain ⟨hq, hs, hiff⟩ := hf
    simp only [fifoOps, FIFOQueueFrontier.pop] at hpop
    cases hqe : f.queue with
    | nil => rw [hqe] at hpop; exact Option.noConfusion hpop
    | cons m rest =>
      rw [hqe] at hpop
      simp only [Option.some.injEq, Prod.mk.injEq] at hpop
      obtain ⟨rfl, rfl⟩ := hpop
      rw [hqe] at hq hiff
      rw [List.map_cons, List.nodup_cons] at hq
      refine ⟨hq.2, removeFirst_nodup hs, ?_⟩
      intro s
      rw [mem_removeFirst hs, hiff s]
      simp only [List.map_cons, List.mem_cons]
      constructor
      · rintro ⟨rfl | hmem, hne⟩
        · exact absurd rfl hne
        · exact hmem
      · intro hmem
        exact ⟨Or.inr hmem, fun he => hq.1 (he ▸ hmem)⟩
  case stSet_push =>
    intro f n p hf
    obtain ⟨hq, hs, hiff⟩ := hf
    simp only [fifoOps, FIFOQueueFrontier.push]
    by_cases hmem : n.state ∈ f.state_set
    · rw [if_pos hmem]
      have hmemq : n.state ∈ f.queue.map Node.state := (hiff _).mp hmem
      exact (Finset.insert_eq_self.mpr (List.mem_toFinset.mpr hmemq)).symm
    · rw [if_neg hmem]
      ext s
      simp only [fifoStSet, List.map_append, List.map_cons, List.map_nil,
        List.toFinset_append, List.toFinset_cons, List.toFinset_nil,
        insert_emptyc_eq, Finset.mem_union, Finset.mem_insert,
        List.mem_toFinset, Finset.mem_singleton]
      tauto
  case pop_total =>
    intro f hf hne
    simp only [fifoOps, FIFOQueueFrontier.is_empty] at hne
    cases hqe : f.queue with
    | nil => rw [hqe] at hne; simp at hne
    | cons m rest =>
      exact ⟨m, ⟨rest, removeFirst f.state_set m.state⟩, by
        simp [fifoOps, FIFOQueueFrontier.pop, hqe]⟩
  case empty_iff =>
    intro f hf
    simp only [fifoOps, FIFOQueueFrontier.is_empty, fifoStSet]
    cases hqe : f.queue <;> simp
  case pop_mem =>
    intro f n f' hf hpop
    obtain ⟨hq, hs, hiff⟩ := hf
    simp only [fifoOps, FIFOQueueFrontier.pop] at hpop
    cases hqe : f.queue with
    | nil => rw [hqe] at hpop; exact Option.noConfusion hpop
    | cons m rest =>
      rw [hqe] at hpop
      simp only [Option.some.injEq, Prod.mk.injEq] at hpop
      obtain ⟨rfl, rfl⟩ := hpop
      rw [hqe] at hq
      rw [List.map_cons, List.nodup_cons] at hq
      constructor
      · simp [fifoStSet, hqe]
      · simp only [fifoStSet, hqe, List.map_cons, List.toFinset_cons]
        rw [Finset.erase_insert]
        simpa using hq.1
  case size_eq =>
    intro f hf
    obtain ⟨hq, _, _⟩ := hf
    simp only [fifoOps, FIFOQueueFrontier.size, fifoStSet]
    rw [List.toFinset_card_of_nodup hq, List.length_map]
  case nodes_push =>
    intro f n p hf
    simp only [fifoOps, FIFOQueueFrontier.push]
    by_cases hmem : n.state ∈ f.state_set
    · rw [if_pos hmem]
      exact fun x hx => Set.mem_insert_iff.mpr (Or.inr hx)
    · rw [if_neg hmem]
      intro x hx
      simp only [fifoNodes, Set.mem_setOf_eq, List.mem_append,
        List.mem_singleton] at hx
      rcases hx with hx | rfl
      · exact Set.mem_insert_iff.mpr (Or.inr hx)
      · exact Set.mem_insert _ _
  case pop_node =>
    intro f n f' hf hpop
    simp only [fifoOps, FIFOQueueFrontier.pop] at hpop
    cases hqe : f.queue with
    | nil => rw [hqe] at hpop; exact Option.noConfusion hpop
    | cons m rest =>
      rw [hqe] at hpop
      simp only [Option.some.injEq, Prod.mk.injEq] at hpop
      obtain ⟨rfl, rfl⟩ := hpop
      constructor
      · simp [fifoNodes, hqe]
      · intro x hx
        simp only [fifoNodes, Set.mem_setOf_eq] at hx ⊢
        rw [hqe]
        exact List.mem_cons_of_mem m hx

/-! ### Expansion preserves the engine invariants -/

theorem expand_step_facts [DecidableEq S] {σ : Type} (cfg : EngineCfg S A σ)
    {inv : σ → Prop} {stSet : σ → Finset S} {nodes : σ → Set (Node S A)}
    (FS : FrontierSound cfg.ops inv stSet nodes)
    (node : Node S A) (st : EngineState S σ) (x : S × A × ℚ)
    (hinv : inv st.frontier) :
    inv (SearchEngine.expand_step cfg node st x).frontier ∧
    (SearchEngine.expand_step cfg node st x).closed = st.closed ∧
    (SearchEngine.expand_step cfg node st x).best_cost = st.best_cost ∧
    (SearchEngine.expand_step cfg node st x).nodes_expanded =
      st.nodes_expanded ∧
    (SearchEngine.expand_step cfg node st x).max_frontier_size =
      st.max_frontier_size ∧
    stSet st.frontier ⊆ stSet (SearchEngine.expand_step cfg node st x).frontier ∧
    stSet (SearchEngine.expand_step cfg node st x).frontier ⊆
      insert x.1 (stSet st.frontier) ∧
    (stSet (SearchEngine.expand_step cfg node st x).frontier).card +
        st.nodes_generated ≤
      (stSet st.frontier).card +
        (SearchEngine.expand_step cfg node st x).nodes_generated ∧
    (SearchEngine.expand_step cfg node st x).nodes_generated ≤
      st.nodes_generated + 1 ∧
    (cfg.graph_search = true → cfg.allow_revisit = false → x.1 ∉ st.closed →
      x.1 ∈ stSet (SearchEngine.expand_step cfg node st x).frontier) ∧
    ((∀ m ∈ nodes st.frontier, wfNode m) → wfNode node →
      ∀ m ∈ nodes (SearchEngine.expand_step cfg node st x).frontier, wfNode m) := by
  simp only [SearchEngine.expand_step]
  set skip : Bool :=
    (if cfg.graph_search then
      if cfg.allow_revisit then
        match lookupKey st.best_cost x.1 with
        | some best => decide (node.path_cost + x.2.2 ≥ best)
        | none => false
      else decide (x.1 ∈ st.closed)
    else false) with hskip
  by_cases hb : skip = true
  · rw [if_pos hb]
    refine ⟨hinv, rfl, rfl, rfl, rfl, Finset.Subset.refl _,
      Finset.subset_insert _ _, le_refl _, Nat.le_succ _, ?_, fun hwf _ => hwf⟩
    intro hg ha hncl
    exfalso
    rw [hskip, hg, ha] at hb
    simp only [if_pos] at hb
    exact hncl (of_decide_eq_true hb)
  · rw [if_neg hb]
    have hchild : (Node.mk x.1 (some node) (some x.2.1)
        (node.path_cost + x.2.2) (node.depth + 1) : Node S A).state = x.1 := rfl
    constructor
    · exact FS.inv_push _ _ _ hinv
    refine ⟨rfl, rfl, rfl, rfl, ?_, ?_, ?_, Nat.le_refl _, ?_, ?_⟩
    · rw [FS.stSet_push _ _ _ hinv, hchild]
      exact Finset.subset_insert _ _
    · rw [FS.stSet_push _ _ _ hinv, hchild]
    · show (stSet (cfg.ops.push st.frontier _ _)).card + st.nodes_generated ≤
        (stSet st.frontier).card + (st.nodes_generated + 1)
      rw [FS.stSet_push _ _ _ hinv, hchild]
      have := Finset.card_insert_le x.1 (stSet st.frontier)
      omega
    · intro _ _ _
      rw [FS.stSet_push _ _ _ hinv, hchild]
      exact Finset.mem_insert_self _ _
    · intro hwf hwfn m hm
      have := FS.nodes_push st.frontier _
        (cfg.priority_fn _ cfg.heuristic) hinv hm
      rcases Set.mem_insert_iff.mp this with rfl | hmem
      · exact ⟨Option.noConfusion, rfl, hwfn⟩
      · exact hwf m hmem

theorem expand_fold_facts [DecidableEq S] {σ : Type} (cfg : EngineCfg S A σ)
    {inv : σ → Prop} {stSet : σ → Finset S} {nodes : σ → Set (Node S A)}
    (FS : FrontierSound cfg.ops inv stSet nodes) (node : Node S A) :
    ∀ (l : List (S × A × ℚ)) (st : EngineState S σ), inv st.frontier →
      inv ((l.foldl (SearchEngine.expand_step cfg node) st)).frontier ∧
      (l.foldl (SearchEngine.expand_step cfg node) st).closed = st.closed ∧
      (l.foldl (SearchEngine.expand_step cfg node) st).best_cost =
        st.best_cost ∧
      (l.foldl (SearchEngine.expand_step cfg node) st).nodes_expanded =
        st.nodes_expanded ∧
      (l.foldl (SearchEngine.expand_step cfg node) st).max_frontier_size =
        st.max_frontier_size ∧
      stSet st.frontier ⊆
        stSet (l.foldl (SearchEngine.expand_step cfg node) st).frontier ∧
      stSet (l.foldl (SearchEngine.expand_step cfg node) st).frontier ⊆
        stSet st.frontier ∪ (l.map (fun x => x.1)).toFinset ∧
      (stSet (l.foldl (SearchEngine.expand_step cfg node) st).frontier).card +
          st.nodes_generated ≤
        (stSet st.frontier).card +
          (l.foldl (SearchEngine.expand_step cfg node) st).nodes_generated ∧
      (l.foldl (SearchEngine.expand_step cfg node) st).nodes_generated +
          (stSet st.frontier).card ≤
        st.nodes_generated + (stSet st.frontier).card + l.length ∧
      (cfg.graph_search = true → cfg.allow_revisit = false →
        ∀ x ∈ l, x.1 ∈ st.closed ∨
          x.1 ∈ stSet (l.foldl (SearchEngine.expand_step cfg node) st).frontier) ∧
      ((∀ m ∈ nodes st.frontier, wfNode m) → wfNode node →
        ∀ m ∈ nodes (l.foldl (SearchEngine.expand_step cfg node) st).frontier,
          wfNode m) := by
  intro l
  induction l with
  | nil =>
    intro st hinv
    refine ⟨hinv, rfl, rfl, rfl, rfl, Finset.Subset.refl _, by simp,
      le_refl _, by simp, ?_, ?_⟩
    · intro _ _ x hx; exact absurd hx (List.not_mem_nil x)
    · intro hwf _; exact hwf
  | cons x t ih =>
    intro st hinv
    obtain ⟨s1, s2, s3, s4, s5, s6, s7, s8, s11, s9, s10⟩ :=
      expand_step_facts cfg FS node st x hinv
    obtain ⟨i1, i2, i3, i4, i5, i6, ib, i7, i8, i9, i10⟩ :=
      ih (SearchEngine.expand_step cfg node st x) s1
    rw [List.foldl_cons]
    refine ⟨i1, by rw [i2, s2], by rw [i3, s3], by rw [i4, s4],
      by rw [i5, s5], s6.trans i6, ?_, ?_, ?_, ?_, ?_⟩
    · intro y hy
      rcases Finset.mem_union.mp (ib hy) with hy1 | hy2
      · rcases Finset.mem_insert.mp (s7 hy1) with rfl | hy3
        · apply Finset.mem_union_right
          simp
        · exact Finset.mem_union_left _ hy3
      · apply Finset.mem_union_right
        simp only [List.map_cons, List.toFinset_cons, Finset.mem_insert,
          List.mem_toFinset] at hy2 ⊢
        exact Or.inr hy2
    · omega
    · have hcard0 : (stSet st.frontier).card ≤
          (stSet (SearchEngine.expand_step cfg node st x).frontier).card :=
        Finset.card_le_card s6
      simp only [List.length_cons]
      omega
    · intro hg ha y hy
      rcases List.mem_cons.mp hy with rfl | hyt
      · by_cases hcl : y.1 ∈ st.closed
        · exact Or.inl hcl
        · exact Or.inr (i6 (s9 hg ha hcl))
      · rcases i9 hg ha y hyt with hl | hr
        · rw [s2] at hl; exact Or.inl hl
        · exact Or.inr hr
    · intro hwf hwfn
      exact i10 (s10 hwf hwfn) hwfn

/-! ### Statistics invariants of the main loop -/

theorem searchLoop_stats [DecidableEq S] {σ : Type} (cfg : EngineCfg S A σ)
    {inv : σ → Prop} {stSet : σ → Finset S} {nodes : σ → Set (Node S A)}
    (FS : FrontierSound cfg.ops inv stSet nodes) :
    ∀ (fuel : Nat) (st : EngineState S σ) (r : SearchResult S A)
      (st' : EngineState S σ),
      inv st.frontier →
      st.nodes_expanded + (stSet st.frontier).card ≤ st.nodes_generated →
      (stSet st.frontier ≠ ∅ ∨ 1 ≤ st.max_frontier_size) →
      SearchEngine.searchLoop cfg fuel st = some (r, st') →
      r.nodes_expanded ≤ r.nodes_generated ∧ 1 ≤ r.max_frontier_size := by
  intro fuel
  induction fuel with
  | zero =>
    intro st r st' _ _ _ h
    exact absurd h (by simp [SearchEngine.searchLoop])
  | succ k ih =>
    intro st r st' hinv hge hmax hrun
    simp only [SearchEngine.searchLoop, SearchEngine.expand_node] at hrun
    by_cases hemp : cfg.ops.is_empty st.frontier = true
    · rw [if_pos hemp] at hrun
      simp only [Option.some.injEq, Prod.mk.injEq] at hrun
      obtain ⟨rfl, rfl⟩ := hrun
      have hempty := (FS.empty_iff _ hinv).mp hemp
      have hm : 1 ≤ st.max_frontier_size := by
        rcases hmax with hne | hm
        · exact absurd hempty hne
        · exact hm
      refine ⟨?_, hm⟩
      show st.nodes_expanded ≤ st.nodes_generated
      omega
    · rw [if_neg hemp] at hrun
      have hne : cfg.ops.is_empty st.frontier = false :=
        Bool.eq_false_iff.mpr hemp
      have hnonempty : stSet st.frontier ≠ ∅ := fun h =>
        hemp ((FS.empty_iff _ hinv).mpr h)
      have hcard1 : 1 ≤ (stSet st.frontier).card :=
        Finset.card_pos.mpr (Finset.nonempty_iff_ne_empty.mpr hnonempty)
      have hm1 : 1 ≤ max st.max_frontier_size (cfg.ops.size st.frontier) := by
        rw [FS.size_eq _ hinv]
        omega
      obtain ⟨current, f', hpop⟩ := FS.pop_total _ hinv hne
      simp only [hpop] at hrun
      have hinv' : inv f' := FS.inv_pop _ _ _ hinv hpop
      obtain ⟨hmemcur, herase⟩ := FS.pop_mem _ _ _ hinv hpop
      have hcard' : (stSet f').card + 1 = (stSet st.frontier).card := by
        rw [herase, Finset.card_erase_of_mem hmemcur]
        omega
      -- every recursive call without expansion
      have hskip : ∀ (st2 : EngineState S σ),
          SearchEngine.searchLoop cfg k st2 = some (r, st') →
          inv st2.frontier →
          st2.frontier = f' →
          st2.nodes_generated = st.nodes_generated →
          st2.nodes_expanded = st.nodes_expanded →
          st2.max_frontier_size =
            max st.max_frontier_size (cfg.ops.size st.frontier) →
          r.nodes_expanded ≤ r.nodes_generated ∧ 1 ≤ r.max_frontier_size := by
        intro st2 hrun2 h1 hf hg he hm
        refine ih st2 r st' h1 ?_ (Or.inr ?_) hrun2
        · rw [hf, hg, he]
          omega
        · rw [hm]
          exact hm1
      -- every recursive call with expansion
      have hexp : ∀ (st3 : EngineState S σ),
          SearchEngine.searchLoop cfg k
            ((cfg.get_successors current.state).foldl
              (SearchEngine.expand_step cfg current) st3) = some (r, st') →
          inv st3.frontier →
          st3.frontier = f' →
          st3.nodes_generated = st.nodes_generated →
          st3.nodes_expanded = st.nodes_expanded + 1 →
          st3.max_frontier_size =
            max st.max_frontier_size (cfg.ops.size st.frontier) →
          r.nodes_expanded ≤ r.nodes_generated ∧ 1 ≤ r.max_frontier_size := by
        intro st3 hrun3 h1 hf hg he hm
        obtain ⟨e1, _, _, e4, e5, _, _, e7, _, _, _⟩ :=
          expand_fold_facts cfg FS current
            (cfg.get_successors current.state) st3 h1
        refine ih _ r st' e1 ?_ (Or.inr ?_) hrun3
        · rw [e4, he]
          rw [hf, hg] at e7
          omega
        · rw [e5, hm]
          exact hm1
      by_cases hgoal : cfg.is_goal current.state = true
      · rw [if_pos hgoal] at hrun
        simp only [Option.some.injEq, Prod.mk.injEq] at hrun
        obtain ⟨rfl, rfl⟩ := hrun
        constructor
        · show st.nodes_expanded ≤ st.nodes_generated
          omega
        · exact hm1
      · rw [if_neg hgoal] at hrun
        by_cases hgs : cfg.graph_search = true
        · rw [if_pos hgs] at hrun
          by_cases har : cfg.allow_revisit = true
          · rw [if_pos har] at hrun
            cases hlook : lookupKey st.best_cost current.state with
            | some best =>
              simp only [hlook] at hrun
              by_cases hworse : current.path_cost > best
              · rw [if_pos hworse] at hrun
                exact hskip _ hrun hinv' rfl rfl rfl rfl
              · rw [if_neg hworse] at hrun
                exact hexp _ hrun hinv' rfl rfl rfl rfl
            | none =>
              simp only [hlook] at hrun
              exact hexp _ hrun hinv' rfl rfl rfl rfl
          · rw [if_neg har] at hrun
            by_cases hcl : current.state ∈ st.closed
            · rw [if_pos hcl] at hrun
              exact hskip _ hrun hinv' rfl rfl rfl rfl
            · rw [if_neg hcl] at hrun
              exact hexp _ hrun hinv' rfl rfl rfl rfl
        · rw [if_neg hgs] at hrun
          exact hexp _ hrun hinv' rfl rfl rfl rfl

/-- The main loop always returns a result whose frontier high-water mark is
at least 1 when it starts on a non-empty frontier (or has already recorded a
positive mark), regardless of how the frontier was populated. -/
theorem searchLoop_max [DecidableEq S] {σ : Type} (cfg : EngineCfg S A σ)
    {inv : σ → Prop} {stSet : σ → Finset S} {nodes : σ → Set (Node S A)}
    (FS : FrontierSound cfg.ops inv stSet nodes) :
    ∀ (fuel : Nat) (st : EngineState S σ) (r : SearchResult S A)
      (st' : EngineState S σ),
      inv st.frontier →
      (stSet st.frontier ≠ ∅ ∨ 1 ≤ st.max_frontier_size) →
      SearchEngine.searchLoop cfg fuel st = some (r, st') →
      1 ≤ r.max_frontier_size := by
  intro fuel
  induction fuel with
  | zero =>
    intro st r st' _ _ h
    exact absurd h (by simp [SearchEngine.searchLoop])
  | succ k ih =>
    intro st r st' hinv hmax hrun
    simp only [SearchEngine.searchLoop, SearchEngine.expand_node] at hrun
    by_cases hemp : cfg.ops.is_empty st.frontier = true
    · rw [if_pos hemp] at hrun
      simp only [Option.some.injEq, Prod.mk.injEq] at hrun
      obtain ⟨rfl, rfl⟩ := hrun
      have hempty := (FS.empty_iff _ hinv).mp hemp
      rcases hmax with hne | hm
      · exact absurd hempty hne
      · exact hm
    · rw [if_neg hemp] at hrun
      have hne : cfg.ops.is_empty st.frontier = false :=
        Bool.eq_false_iff.mpr hemp
      have hnonempty : stSet st.frontier ≠ ∅ := fun h =>
        hemp ((FS.empty_iff _ hinv).mpr h)
      have hcard1 : 1 ≤ (stSet st.frontier).card :=
        Finset.card_pos.mpr (Finset.nonempty_iff_ne_empty.mpr hnonempty)
      have hm1 : 1 ≤ max st.max_frontier_size (cfg.ops.size st.frontier) := by
        rw [FS.size_eq _ hinv]
        omega
      obtain ⟨current, f', hpop⟩ := FS.pop_total _ hinv hne
      simp only [hpop] at hrun
      have hinv' : inv f' := FS.inv_pop _ _ _ hinv hpop
      have hskip : ∀ (st2 : EngineState S σ),
          SearchEngine.searchLoop cfg k st2 = some (r, st') →
          inv st2.frontier →
          st2.max_frontier_size =
            max st.max_frontier_size (cfg.ops.size st.frontier) →
          1 ≤ r.max_frontier_size := by
        intro st2 hrun2 h1 hm
        refine ih st2 r st' h1 (Or.inr ?_) hrun2
        rw [hm]
        exact hm1
      have hexp : ∀ (st3 : EngineState S σ),
          SearchEngine.searchLoop cfg k
            ((cfg.get_successors current.state).foldl
              (SearchEngine.expand_step cfg current) st3) = some (r, st') →
          inv st3.frontier →
          st3.max_frontier_size =
            max st.max_frontier_size (cfg.ops.size st.frontier) →
          1 ≤ r.max_frontier_size := by
        intro st3 hrun3 h1 hm
        obtain ⟨e1, _, _, _, e5, _, _, _, _, _, _⟩ :=
          expand_fold_facts cfg FS current
            (cfg.get_successors current.state) st3 h1
        refine ih _ r st' e1 (Or.inr ?_) hrun3
        rw [e5, hm]
        exact hm1
      by_cases hgoal : cfg.is_goal current.state = true
      · rw [if_pos hgoal] at hrun
        simp only [Option.some.injEq, Prod.mk.injEq] at hrun
        obtain ⟨rfl, rfl⟩ := hrun
        simpa [SearchEngine.build_success_result] using hm1
      · rw [if_neg hgoal] at hrun
        by_cases hgs : cfg.graph_search = true
        · rw [if_pos hgs] at hrun
          by_cases har : cfg.allow_revisit = true
          · rw [if_pos har] at hrun
            cases hlook : lookupKey st.best_cost current.state with
            | some best =>
              simp only [hlook] at hrun
              by_cases hworse : current.path_cost > best
              · rw [if_pos hworse] at hrun
                exact hskip _ hrun hinv' rfl
              · rw [if_neg hworse] at hrun
                exact hexp _ hrun hinv' rfl
            | none =>
              simp only [hlook] at hrun
              exact hexp _ hrun hinv' rfl
          · rw [if_neg har] at hrun
            by_cases hcl : current.state ∈ st.closed
            · rw [if_pos hcl] at hrun
              exact hskip _ hrun hinv' rfl
            · rw [if_neg hcl] at hrun
              exact hexp _ hrun hinv' rfl
        · rw [if_neg hgs] at hrun
          exact hexp _ hrun hinv' rfl

/-- C8 (amended): for every `search()` invocation on a sound frontier the
returned result has `max_frontier_size ≥ 1` — the root node is always
pushed, so the loop always sees a non-empty frontier once; and every
invocation that begins with an empty frontier (in particular any first call
on a fresh engine) additionally satisfies
`nodes_generated ≥ nodes_expanded`. -/
theorem C8_amended_stats_invariant [DecidableEq S] {σ : Type}
    (cfg : EngineCfg S A σ) {inv : σ → Prop} {stSet : σ → Finset S}
    {nodes : σ → Set (Node S A)}
    (FS : FrontierSound cfg.ops inv stSet nodes)
    (st0 : EngineState S σ) (fuel : Nat) (r : SearchResult S A)
    (st' : EngineState S σ)
    (hinv : inv st0.frontier)
    (hrun : SearchEngine.search cfg fuel st0 = some (r, st')) :
    (stSet st0.frontier = ∅ → r.nodes_expanded ≤ r.nodes_generated) ∧
      1 ≤ r.max_frontier_size := by
  simp only [SearchEngine.search] at hrun
  by_cases har : cfg.allow_revisit = true
  · rw [if_pos har] at hrun
    constructor
    · intro hempty
      refine (searchLoop_stats cfg FS fuel _ r st' ?_ ?_ ?_ hrun).1
      · exact FS.inv_push _ _ _ hinv
      · show 0 + (stSet (cfg.ops.push st0.frontier _ _)).card ≤ 1
        rw [FS.stSet_push _ _ _ hinv, hempty]
        simp
      · left
        show stSet (cfg.ops.push st0.frontier _ _) ≠ ∅
        rw [FS.stSet_push _ _ _ hinv]
        exact Finset.insert_ne_empty _ _
    · refine searchLoop_max cfg FS fuel _ r st' ?_ (Or.inl ?_) hrun
      · exact FS.inv_push _ _ _ hinv
      · show stSet (cfg.ops.push st0.frontier _ _) ≠ ∅
        rw [FS.stSet_push _ _ _ hinv]
        exact Finset.insert_ne_empty _ _
  · rw [if_neg har] at hrun
    constructor
    · intro hempty
      refine (searchLoop_stats cfg FS fuel _ r st' ?_ ?_ ?_ hrun).1
      · exact FS.inv_push _ _ _ hinv
      · show 0 + (stSet (cfg.ops.push st0.frontier _ _)).card ≤ 1
        rw [FS.stSet_push _ _ _ hinv, hempty]
        simp
      · left
        show stSet (cfg.ops.push st0.frontier _ _) ≠ ∅
        rw [FS.stSet_push _ _ _ hinv]
        exact Finset.insert_ne_empty _ _
    · refine searchLoop_max cfg FS fuel _ r st' ?_ (Or.inl ?_) hrun
      · exact FS.inv_push _ _ _ hinv
      · show stSet (cfg.ops.push st0.frontier _ _) ≠ ∅
        rw [FS.stSet_push _ _ _ hinv]
        exact Finset.insert_ne_empty _ _

/-- Witness for the amended C8 on the concrete unreachable-goal problem
`cfgC4`, run on a fresh FIFO engine. -/
theorem C8_amended_stats_invariant_witness :
    fifoInv (fifoInit.frontier) ∧
    ((fifoStSet (fifoInit.frontier) = ∅ → (1 : Nat) ≤ 1) ∧ (1 : Nat) ≤ 1) :=
  ⟨⟨List.nodup_nil, List.nodup_nil, fun s => Iff.rfl⟩,
   C8_amended_stats_invariant cfgC4 fifoSound fifoInit 5
     ⟨false, none, 1, 1, 1, [], [], ⊤⟩ ⟨⟨[], []⟩, [St.A], [], 1, 1, 1⟩
     ⟨List.nodup_nil, List.nodup_nil, fun s => Iff.rfl⟩
     (by with_unfolding_all rfl)⟩

/-! ### Path reconstruction on well-formed nodes -/

theorem collectBack_lengths : ∀ (g : Node S A), wfNode g →
    (collectBack g).1.length = g.depth + 1 ∧
      (collectBack g).2.length = g.depth
  | .mk s none a c d, h => by
    simp only [wfNode] at h
    obtain ⟨ha, hd⟩ := h
    subst ha hd
    simp [collectBack, Node.depth]
  | .mk s (some q) a c d, h => by
    simp only [wfNode] at h
    obtain ⟨ha, hd, hq⟩ := h
    subst hd
    have ih := collectBack_lengths q hq
    cases ha2 : a with
    | none => exact absurd ha2 ha
    | some act =>
      subst ha2
      simp only [collectBack, Node.depth, List.length_cons]
      exact ⟨by rw [ih.1]; rfl, by rw [ih.2]; rfl⟩

theorem reconstruct_path_lengths {g : Node S A} (h : wfNode g) :
    (reconstruct_path g).1.length = g.depth + 1 ∧
      (reconstruct_path g).2.length = g.depth := by
  obtain ⟨h1, h2⟩ := collectBack_lengths g h
  simp [reconstruct_path, h1, h2]

/-- The main loop only ever stores well-formed nodes, so a successful result
carries a well-formed goal node whose reconstruction it returns. -/
theorem searchLoop_wf [DecidableEq S] {σ : Type} (cfg : EngineCfg S A σ)
    {inv : σ → Prop} {stSet : σ → Finset S} {nodes : σ → Set (Node S A)}
    (FS : FrontierSound cfg.ops inv stSet nodes) :
    ∀ (fuel : Nat) (st : EngineState S σ) (r : SearchResult S A)
      (st' : EngineState S σ),
      inv st.frontier →
      (∀ m ∈ nodes st.frontier, wfNode m) →
      SearchEngine.searchLoop cfg fuel st = some (r, st') →
      r.success = true →
      ∃ g, r.goal_node = some g ∧ wfNode g ∧
        r.path = (reconstruct_path g).1 ∧ r.actions = (reconstruct_path g).2 := by
  intro fuel
  induction fuel with
  | zero =>
    intro st r st' _ _ h
    exact absurd h (by simp [SearchEngine.searchLoop])
  | succ k ih =>
    intro st r st' hinv hwf hrun hsucc
    simp only [SearchEngine.searchLoop, SearchEngine.expand_node] at hrun
    by_cases hemp : cfg.ops.is_empty st.frontier = true
    · rw [if_pos hemp] at hrun
      simp only [Option.some.injEq, Prod.mk.injEq] at hrun
      obtain ⟨rfl, rfl⟩ := hrun
      exact absurd hsucc (by simp [SearchEngine.build_failure_result])
    · rw [if_neg hemp] at hrun
      have hne : cfg.ops.is_empty st.frontier = false :=
        Bool.eq_false_iff.mpr hemp
      obtain ⟨current, f', hpop⟩ := FS.pop_total _ hinv hne
      simp only [hpop] at hrun
      obtain ⟨hcur_mem, hsub⟩ := FS.pop_node _ _ _ hinv hpop
      have hinv' : inv f' := FS.inv_pop _ _ _ hinv hpop
      have hwfcur : wfNode current := hwf current hcur_mem
      have hwf' : ∀ m ∈ nodes f', wfNode m := fun m hm => hwf m (hsub hm)
      have hskip : ∀ (st2 : EngineState S σ),
          SearchEngine.searchLoop cfg k st2 = some (r, st') →
          inv st2.frontier → st2.frontier = f' →
          ∃ g, r.goal_node = some g ∧ wfNode g ∧
            r.path = (reconstruct_path g).1 ∧
            r.actions = (reconstruct_path g).2 := by
        intro st2 hrun2 h1 hf
        refine ih st2 r st' h1 ?_ hrun2 hsucc
        rw [hf]
        exact hwf'
      have hexp : ∀ (st3 : EngineState S σ),
          SearchEngine.searchLoop cfg k
            ((cfg.get_successors current.state).foldl
              (SearchEngine.expand_step cfg current) st3) = some (r, st') →
          inv st3.frontier → st3.frontier = f' →
          ∃ g, r.goal_node = some g ∧ wfNode g ∧
            r.path = (reconstruct_path g).1 ∧
            r.actions = (reconstruct_path g).2 := by
        intro st3 hrun3 h1 hf
        obtain ⟨e1, _, _, _, _, _, _, _, _, _, e10⟩ :=
          expand_fold_facts cfg FS current
            (cfg.get_successors current.state) st3 h1
        refine ih _ r st' e1 ?_ hrun3 hsucc
        refine e10 ?_ hwfcur
        rw [hf]
        exact hwf'
      by_cases hgoal : cfg.is_goal current.state = true
      · rw [if_pos hgoal] at hrun
        simp only [Option.some.injEq, Prod.mk.injEq] at hrun
        obtain ⟨rfl, rfl⟩ := hrun
        exact ⟨current, rfl, hwfcur, rfl, rfl⟩
      · rw [if_neg hgoal] at hrun
        by_cases hgs : cfg.graph_search = true
        · rw [if_pos hgs] at hrun
          by_cases har : cfg.allow_revisit = true
          · rw [if_pos har] at hrun
            cases hlook : lookupKey st.best_cost current.state with
            | some best =>
              simp only [hlook] at hrun
              by_cases hworse : current.path_cost > best
              · rw [if_pos hworse] at hrun
                exact hskip _ hrun hinv' rfl
              · rw [if_neg hworse] at hrun
                exact hexp _ hrun hinv' rfl
            | none =>
              simp only [hlook] at hrun
              exact hexp _ hrun hinv' rfl
          · rw [if_neg har] at hrun
            by_cases hcl : current.state ∈ st.closed
            · rw [if_pos hcl] at hrun
              exact hskip _ hrun hinv' rfl
            · rw [if_neg hcl] at hrun
              exact hexp _ hrun hinv' rfl
        · rw [if_neg hgs] at hrun
          exact hexp _ hrun hinv' rfl

/-- C7: a successful search whose goal node has depth D returns a path of
D + 1 states and an action list of D actions: the reconstruction walks parent
links to the root, which contributes a state but no action, and reverses both
sequences. -/
theorem C7_solution_lengths [DecidableEq S] {σ : Type}
    (cfg : EngineCfg S A σ) {inv : σ → Prop} {stSet : σ → Finset S}
    {nodes : σ → Set (Node S A)}
    (FS : FrontierSound cfg.ops inv stSet nodes)
    (st0 : EngineState S σ) (fuel : Nat) (r : SearchResult S A)
    (st' : EngineState S σ)
    (hinv : inv st0.frontier)
    (hwf : ∀ m ∈ nodes st0.frontier, wfNode m)
    (hrun : SearchEngine.search cfg fuel st0 = some (r, st'))
    (hsucc : r.success = true) :
    ∃ g, r.goal_node = some g ∧ r.path.length = g.depth + 1 ∧
      r.actions.length = g.depth := by
  simp only [SearchEngine.search] at hrun
  have hroot : wfNode (Node.mk cfg.initial_state none none 0 0 : Node S A) :=
    ⟨rfl, rfl⟩
  have hwf1 : ∀ m ∈ nodes (cfg.ops.push st0.frontier
      (Node.mk cfg.initial_state none none 0 0)
      (cfg.priority_fn (Node.mk cfg.initial_state none none 0 0)
        cfg.heuristic)), wfNode m := by
    intro m hm
    rcases Set.mem_insert_iff.mp (FS.nodes_push _ _ _ hinv hm) with rfl | hmem
    · exact hroot
    · exact hwf m hmem
  have hinv1 : inv (cfg.ops.push st0.frontier
      (Node.mk cfg.initial_state none none 0 0)
      (cfg.priority_fn (Node.mk cfg.initial_state none none 0 0)
        cfg.heuristic)) := FS.inv_push _ _ _ hinv
  have hmain : ∃ g, r.goal_node = some g ∧ wfNode g ∧
      r.path = (reconstruct_path g).1 ∧ r.actions = (reconstruct_path g).2 := by
    by_cases har : cfg.allow_revisit = true
    · rw [if_pos har] at hrun
      exact searchLoop_wf cfg FS fuel _ r st' hinv1 hwf1 hrun hsucc
    · rw [if_neg har] at hrun
      exact searchLoop_wf cfg FS fuel _ r st' hinv1 hwf1 hrun hsucc
  obtain ⟨g, hg, hwfg, hp, ha⟩ := hmain
  obtain ⟨l1, l2⟩ := reconstruct_path_lengths hwfg
  exact ⟨g, hg, by rw [hp, l1], by rw [ha, l2]⟩

/-- Witness for C7: the concrete `cfgSerial` run succeeds with the depth-1
goal node for state B, a 2-state path and a 1-action list. -/
theorem C7_solution_lengths_witness :
    (∃ g, (some (Node.mk St.B (some (Node.mk St.A none none 0 0)) (some 0) 1 1) :
        Option (Node St Nat)) = some g ∧
      ([St.A, St.B] : List St).length = g.depth + 1 ∧
      ([0] : List Nat).length = g.depth) :=
  C7_solution_lengths cfgSerial fifoSound fifoInit 20
    ⟨true, some (Node.mk St.B (some (Node.mk St.A none none 0 0)) (some 0) 1 1),
      1, 4, 3, [St.A, St.B], [0], ((1 : ℚ) : WithTop ℚ)⟩
    ⟨⟨[Node.mk St.C (some (Node.mk St.A none none 0 0)) (some 1) 1 1,
        Node.mk St.D (some (Node.mk St.A none none 0 0)) (some 2) 1 1],
      [St.D, St.C]⟩, [St.A], [], 1, 4, 3⟩
    ⟨List.nodup_nil, List.nodup_nil, fun s => Iff.rfl⟩
    (fun m hm => absurd hm (List.not_mem_nil m))
    (by with_unfolding_all rfl) rfl

/-! ### Strict graph search exhausts exactly the reachable states -/

theorem reaches_closed {succ : S → List (S × A × ℚ)} {init : S} {C : List S}
    (hinit : init ∈ C)
    (hstep : ∀ s ∈ C, ∀ t ∈ (succ s).map (fun x => x.1), t ∈ C) :
    ∀ s, Reaches succ init s → s ∈ C := by
  intro s hr
  induction hr with
  | refl => exact hinit
  | step hprev hmem ih =>
    exact hstep _ ih _ (List.mem_map.mpr ⟨_, hmem, rfl⟩)

theorem searchLoop_exhaust [DecidableEq S] {σ : Type} (cfg : EngineCfg S A σ)
    {inv : σ → Prop} {stSet : σ → Finset S} {nodes : σ → Set (Node S A)}
    (FS : FrontierSound cfg.ops inv stSet nodes) (R : Finset S)
    (hgs : cfg.graph_search = true) (har : cfg.allow_revisit = false)
    (hgoal : ∀ s ∈ R, cfg.is_goal s = false)
    (hRsucc : ∀ s ∈ R, ∀ t ∈ (cfg.get_successors s).map (fun x => x.1), t ∈ R) :
    ∀ (fuel : Nat) (st : EngineState S σ),
      LoopInv cfg inv stSet R st →
      searchMeasure cfg stSet R st < fuel →
      ∃ st', SearchEngine.searchLoop cfg fuel st =
          some (SearchEngine.build_failure_result st', st') ∧
        LoopInv cfg inv stSet R st' ∧ stSet st'.frontier = ∅ := by
  intro fuel
  induction fuel with
  | zero =>
    intro st _ hm
    exact absurd hm (Nat.not_lt_zero _)
  | succ k ih =>
    intro st hI hm
    obtain ⟨hinv, hcs, hfs, hcov, hsc, hnd, hexp⟩ := hI
    by_cases hemp : cfg.ops.is_empty st.frontier = true
    · refine ⟨st, ?_, ⟨hinv, hcs, hfs, hcov, hsc, hnd, hexp⟩,
        (FS.empty_iff _ hinv).mp hemp⟩
      simp only [SearchEngine.searchLoop]
      rw [if_pos hemp]
    · have hne : cfg.ops.is_empty st.frontier = false :=
        Bool.eq_false_iff.mpr hemp
      obtain ⟨current, f', hpop⟩ := FS.pop_total _ hinv hne
      obtain ⟨hmemcur, herase⟩ := FS.pop_mem _ _ _ hinv hpop
      have hinv' : inv f' := FS.inv_pop _ _ _ hinv hpop
      have hcurR : current.state ∈ R := hfs _ hmemcur
      have hgoalc : cfg.is_goal current.state = false := hgoal _ hcurR
      have hcard' : (stSet f').card + 1 = (stSet st.frontier).card := by
        rw [herase, Finset.card_erase_of_mem hmemcur]
        have := Finset.card_pos.mpr ⟨current.state, hmemcur⟩
        omega
      have hmem_erase : ∀ t ∈ stSet st.frontier, t ≠ current.state →
          t ∈ stSet f' := by
        intro t ht htne
        rw [herase]
        exact Finset.mem_erase.mpr ⟨htne, ht⟩
      by_cases hcl : current.state ∈ st.closed
      · -- already expanded: the node is skipped
        have hI2 : LoopInv cfg inv stSet R
            ⟨f', st.closed, st.best_cost, st.nodes_expanded,
              st.nodes_generated,
              max st.max_frontier_size (cfg.ops.size st.frontier)⟩ := by
          refine ⟨hinv', hcs, ?_, ?_, ?_, hnd, hexp⟩
          · intro s hs
            exact hfs s (by rw [herase] at hs; exact Finset.mem_of_mem_erase hs)
          · rcases hcov with hl | hr
            · exact Or.inl hl
            · by_cases hin : cfg.initial_state = current.state
              · exact Or.inl (hin ▸ hcl)
              · exact Or.inr (hmem_erase _ hr hin)
          · intro s hs t ht
            rcases hsc s hs t ht with hl | hr
            · exact Or.inl hl
            · by_cases htc : t = current.state
              · exact Or.inl (htc ▸ hcl)
              · exact Or.inr (hmem_erase _ hr htc)
        have hm2 : searchMeasure cfg stSet R
            ⟨f', st.closed, st.best_cost, st.nodes_expanded,
              st.nodes_generated,
              max st.max_frontier_size (cfg.ops.size st.frontier)⟩ < k := by
          simp only [searchMeasure] at hm ⊢
          omega
        obtain ⟨st', hrec, hI', he'⟩ := ih _ hI2 hm2
        refine ⟨st', ?_, hI', he'⟩
        simp only [SearchEngine.searchLoop]
        rw [if_neg hemp]
        simp only [hpop]
        rw [hgoalc, if_neg Bool.false_ne_true, hgs, if_pos rfl, har,
          if_neg Bool.false_ne_true, if_pos hcl]
        exact hrec
      · -- expand the node
        obtain ⟨e1, e2, e3, e4, e5, e6, eb, e7, e8, e9, _⟩ :=
          expand_fold_facts cfg FS current (cfg.get_successors current.state)
            ⟨f', current.state :: st.closed, st.best_cost,
              st.nodes_expanded + 1, st.nodes_generated,
              max st.max_frontier_size (cfg.ops.size st.frontier)⟩ hinv'
        have hsuccR : ∀ t ∈ (cfg.get_successors current.state).map
            (fun x => x.1), t ∈ R := hRsucc _ hcurR
        have hI4 : LoopInv cfg inv stSet R
            ((cfg.get_successors current.state).foldl
              (SearchEngine.expand_step cfg current)
              ⟨f', current.state :: st.closed, st.best_cost,
                st.nodes_expanded + 1, st.nodes_generated,
                max st.max_frontier_size (cfg.ops.size st.frontier)⟩) := by
          refine ⟨e1, ?_, ?_, ?_, ?_, ?_, ?_⟩
          · intro s hs
            rw [e2] at hs
            rcases List.mem_cons.mp hs with rfl | hs'
            · exact hcurR
            · exact hcs s hs'
          · intro s hs
            rcases Finset.mem_union.mp (eb hs) with hl | hr
            · exact hfs s (by rw [herase] at hl; exact Finset.mem_of_mem_erase hl)
            · exact hsuccR s (List.mem_toFinset.mp hr)
          · rw [e2]
            rcases hcov with hl | hr
            · exact Or.inl (List.mem_cons_of_mem _ hl)
            · by_cases hin : cfg.initial_state = current.state
              · exact Or.inl (by rw [hin]; exact List.mem_cons_self _ _)
              · exact Or.inr (e6 (hmem_erase _ hr hin))
          · intro s hs t ht
            rw [e2] at hs ⊢
            rcases List.mem_cons.mp hs with rfl | hs'
            · obtain ⟨x, hx, hxe⟩ := List.mem_map.mp ht
              rcases e9 hgs har x hx with hl | hr
              · exact Or.inl (hxe ▸ hl)
              · exact Or.inr (hxe ▸ hr)
            · rcases hsc s hs' t ht with hl | hr
              · exact Or.inl (List.mem_cons_of_mem _ hl)
              · by_cases htc : t = current.state
                · exact Or.inl (by rw [htc]; exact List.mem_cons_self _ _)
                · exact Or.inr (e6 (hmem_erase _ hr htc))
          · rw [e2]
            exact List.nodup_cons.mpr ⟨hcl, hnd⟩
          · rw [e4, e2]
            simp only [List.length_cons]
            omega
        have hm4 : searchMeasure cfg stSet R
            ((cfg.get_successors current.state).foldl
              (SearchEngine.expand_step cfg current)
              ⟨f', current.state :: st.closed, st.best_cost,
                st.nodes_expanded + 1, st.nodes_generated,
                max st.max_frontier_size (cfg.ops.size st.frontier)⟩) < k := by
          have hcmem : current.state ∈ R \ st.closed.toFinset :=
            Finset.mem_sdiff.mpr ⟨hcurR,
              fun hmem => hcl (List.mem_toFinset.mp hmem)⟩
          have hsplit :
              (∑ s ∈ (R \ st.closed.toFinset).erase current.state,
                  (1 + (cfg.get_successors s).length)) +
                (1 + (cfg.get_successors current.state).length) =
              ∑ s ∈ R \ st.closed.toFinset,
                (1 + (cfg.get_successors s).length) :=
            Finset.sum_erase_add _ _ hcmem
          simp only [searchMeasure] at hm ⊢
          rw [e2]
          rw [show ((⟨f', current.state :: st.closed, st.best_cost,
                st.nodes_expanded + 1, st.nodes_generated,
                max st.max_frontier_size (cfg.ops.size st.frontier)⟩ :
                  EngineState S σ)).closed = current.state :: st.closed
            from rfl]
          rw [List.toFinset_cons, Finset.sdiff_insert]
          rw [show stSet ((⟨f', current.state :: st.closed, st.best_cost,
                st.nodes_expanded + 1, st.nodes_generated,
                max st.max_frontier_size (cfg.ops.size st.frontier)⟩ :
                  EngineState S σ)).frontier = stSet f' from rfl] at e7 e8
          omega
        obtain ⟨st', hrec, hI', he'⟩ := ih _ hI4 hm4
        refine ⟨st', ?_, hI', he'⟩
        simp only [SearchEngine.searchLoop, SearchEngine.expand_node]
        rw [if_neg hemp]
        simp only [hpop]
        rw [hgoalc, if_neg Bool.false_ne_true, hgs, if_pos rfl, har,
          if_neg Bool.false_ne_true, if_neg hcl]
        exact hrec

/-- C4: with `graph_search = true`, `allow_revisit = false`, a fresh engine
and any sound frontier, on a problem whose reachable state space is the
finite set `R` and whose goal is unreachable, `search()` returns a failure
result with empty path and actions, infinite total cost, and
`nodes_expanded` equal to the number of reachable states. -/
theorem C4_unreachable_goal_expands_reachable [DecidableEq S] {σ : Type}
    (cfg : EngineCfg S A σ) {inv : σ → Prop} {stSet : σ → Finset S}
    {nodes : σ → Set (Node S A)} (FS : FrontierSound cfg.ops inv stSet nodes)
    (R : Finset S)
    (hgs : cfg.graph_search = true) (har : cfg.allow_revisit = false)
    (hRchar : ∀ s, s ∈ R ↔ Reaches cfg.get_successors cfg.initial_state s)
    (hgoal : ∀ s ∈ R, cfg.is_goal s = false)
    (st0 : EngineState S σ) (hinv : inv st0.frontier)
    (hempty : stSet st0.frontier = ∅) (fuel : Nat)
    (hfuel : (∑ s ∈ R, (1 + (cfg.get_successors s).length)) + 1 < fuel) :
    ∃ r st', SearchEngine.search cfg fuel st0 = some (r, st') ∧
      r.success = false ∧ r.path = [] ∧ r.actions = [] ∧
      r.total_cost = ⊤ ∧ r.nodes_expanded = R.card := by
  have hRsucc : ∀ s ∈ R, ∀ t ∈ (cfg.get_successors s).map (fun x => x.1),
      t ∈ R := by
    intro s hs t ht
    obtain ⟨x, hx, hxe⟩ := List.mem_map.mp ht
    rw [hRchar]
    rw [hRchar] at hs
    refine Reaches.step hs (show (t, x.2.1, x.2.2) ∈ cfg.get_successors s
      from ?_)
    rw [← hxe]
    exact hx
  have hinitR : cfg.initial_state ∈ R := (hRchar _).mpr Reaches.refl
  have hI1 : LoopInv cfg inv stSet R
      ⟨cfg.ops.push st0.frontier (Node.mk cfg.initial_state none none 0 0)
          (cfg.priority_fn (Node.mk cfg.initial_state none none 0 0)
            cfg.heuristic),
        [], [], 0, 1, 0⟩ := by
    refine ⟨FS.inv_push _ _ _ hinv, ?_, ?_, ?_, ?_, List.nodup_nil, rfl⟩
    · intro s hs
      exact absurd hs (List.not_mem_nil s)
    · intro s hs
      rw [FS.stSet_push _ _ _ hinv, hempty] at hs
      rcases Finset.mem_insert.mp hs with rfl | hs'
      · exact hinitR
      · exact absurd hs' (Finset.not_mem_empty s)
    · right
      rw [FS.stSet_push _ _ _ hinv]
      exact Finset.mem_insert_self _ _
    · intro s hs
      exact absurd hs (List.not_mem_nil s)
  have hm1 : searchMeasure cfg stSet R
      ⟨cfg.ops.push st0.frontier (Node.mk cfg.initial_state none none 0 0)
          (cfg.priority_fn (Node.mk cfg.initial_state none none 0 0)
            cfg.heuristic),
        [], [], 0, 1, 0⟩ < fuel := by
    simp only [searchMeasure]
    rw [show (([] : List S)).toFinset = (∅ : Finset S) from rfl,
      Finset.sdiff_empty]
    rw [show stSet ((⟨cfg.ops.push st0.frontier
          (Node.mk cfg.initial_state none none 0 0)
          (cfg.priority_fn (Node.mk cfg.initial_state none none 0 0)
            cfg.heuristic), [], [], 0, 1, 0⟩ : EngineState S σ)).frontier =
        stSet (cfg.ops.push st0.frontier
          (Node.mk cfg.initial_state none none 0 0)
          (cfg.priority_fn (Node.mk cfg.initial_state none none 0 0)
            cfg.heuristic)) from rfl]
    rw [FS.stSet_push _ _ _ hinv, hempty]
    simp only [Finset.card_insert_of_not_mem (Finset.not_mem_empty _),
      Finset.card_empty]
    omega
  obtain ⟨st', hrec, hI', he'⟩ :=
    searchLoop_exhaust cfg FS R hgs har hgoal hRsucc fuel _ hI1 hm1
  refine ⟨SearchEngine.build_failure_result st', st', ?_, rfl, rfl, rfl, rfl, ?_⟩
  · simp only [SearchEngine.search]
    rw [har, if_neg Bool.false_ne_true]
    exact hrec
  · obtain ⟨hinv', hcs', hfs', hcov', hsc', hnd', hexp'⟩ := hI'
    have hcovinit : cfg.initial_state ∈ st'.closed := by
      rcases hcov' with hl | hr
      · exact hl
      · rw [he'] at hr
        exact absurd hr (Finset.not_mem_empty _)
    have hsteps : ∀ s ∈ st'.closed,
        ∀ t ∈ (cfg.get_successors s).map (fun x => x.1), t ∈ st'.closed := by
      intro s hs t ht
      rcases hsc' s hs t ht with hl | hr
      · exact hl
      · rw [he'] at hr
        exact absurd hr (Finset.not_mem_empty _)
    have hset : st'.closed.toFinset = R := by
      ext s
      constructor
      · intro hs
        exact hcs' s (List.mem_toFinset.mp hs)
      · intro hs
        exact List.mem_toFinset.mpr
          (reaches_closed hcovinit hsteps s ((hRchar s).mp hs))
    show st'.nodes_expanded = R.card
    rw [hexp', ← hset, List.toFinset_card_of_nodup hnd']

/-- Witness for C4: the one-state problem `cfgC4` (no successors, goal
always false) on a fresh FIFO engine expands exactly its one reachable
state. -/
theorem C4_unreachable_goal_expands_reachable_witness :
    fifoStSet (fifoInit.frontier) = ∅ ∧
    (∃ r st', SearchEngine.search cfgC4 5 fifoInit = some (r, st') ∧
      r.success = false ∧ r.path = [] ∧ r.actions = [] ∧
      r.total_cost = ⊤ ∧ r.nodes_expanded = ({St.A} : Finset St).card) :=
  ⟨rfl,
   C4_unreachable_goal_expands_reachable cfgC4 fifoSound {St.A} rfl rfl
     (by
       intro s
       constructor
       · intro hs
         rw [Finset.mem_singleton] at hs
         subst hs
         exact Reaches.refl
       · intro hr
         cases hr with
         | refl => exact Finset.mem_singleton_self _
         | step h1 h2 => exact absurd h2 (List.not_mem_nil _))
     (fun s _ => rfl) fifoInit
     ⟨List.nodup_nil, List.nodup_nil, fun s => Iff.rfl⟩ rfl 5
     (by simp [cfgC4])⟩

end PathFinding